import Mathlib

/-!
Verification development for the progressive reprojection engine of
`src/zoomer.js` (an interactive fractal zoomer).

Shallow embedding conventions:
* JavaScript `Number` coordinates (IEEE doubles) are modelled as exact
  rationals `ℚ`; the algorithms under study are pure arithmetic on them.
* Typed arrays (`Float64Array`, `Int32Array`, `Uint16Array`) are modelled as
  `List ℚ`, `List ℤ`, `List ℕ`.  A JavaScript read `a[i]` beyond the bounds
  yields `undefined`; the model uses `List.getD _ _ 0` and theorems carry the
  bounds hypotheses that keep every interesting access in range.  A JavaScript
  write `a[i] = v` beyond the bounds of a typed array is a no-op, exactly like
  `List.set`.
* `while`/`for` loops are modelled by structural recursion on an explicit
  fuel argument chosen large enough to cover every iteration the source loop
  can perform; each definition documents that choice.
* JavaScript `x >> k` (arithmetic shift on the Int32 range) is modelled as
  floor division `Int.fdiv x (2 ^ k)`; Int32 wrap-around is outside the model
  (no buffer addressable by the source reaches it for the dimensions the
  claims quantify over).
-/

set_option maxRecDepth 40000

/-- Read a rational array cell, `0` for out of bounds. -/
def getQ (xs : List ℚ) (i : ℕ) : ℚ := xs.getD i 0

/-- Read an integer (`Int32Array`) array cell, `0` for out of bounds. -/
def getI (xs : List ℤ) (i : ℕ) : ℤ := xs.getD i 0

/-- Read a pixel buffer at a signed index (JavaScript lets computed indices be
any integer; out of bounds yields `undefined`, modelled as `0`). -/
def getPixZ (px : List ℕ) (idx : ℤ) : ℕ :=
  if 0 ≤ idx then px.getD idx.toNat 0 else 0

/-- JavaScript `x >> k`: arithmetic right shift, i.e. floor division. -/
def jsShr (x : ℤ) (k : ℕ) : ℤ := Int.fdiv x (2 ^ k)

/-!  ## `ZoomerView.makeRuler` (src/zoomer.js lines 394-436)

The inner `while` of `makeRuler` advances the old-ruler cursor while the next
old stop is at least as close:

    while (nextError <= currError && iOld < oldNearest.length - 1) { iOld++; ... }

When `iOld = oldNearest.length - 1` the probe `oldNearest[iOld + 1]` is
`undefined`, `nextError` is `NaN` and the comparison is false, so the loop is
equivalent to guarding with `iOld + 1 < oldNearest.length`.  Each iteration
increments `iOld` under that guard, so the loop body runs fewer than
`oldNearest.length` times; fuel `oldNearest.length` is exact. -/
def advance (curr : ℚ) (old : List ℚ) : ℕ → ℕ → ℕ
  | 0, iOld => iOld
  | fuel + 1, iOld =>
    if iOld + 1 < old.length ∧ |curr - getQ old (iOld + 1)| ≤ |curr - getQ old iOld| then
      advance curr old fuel (iOld + 1)
    else iOld

/-- Result record of `makeRuler`: the four arrays it populates plus the
returned exact-match count. -/
structure RulerOut where
  newCoord : List ℚ
  newNearest : List ℚ
  newError : List ℚ
  newFrom : List ℤ
  cntExact : ℕ
deriving Repr, DecidableEq

/-- Main loop of `makeRuler` (`for (iOld = 0, iNew = 0; iNew < newCoord.length
&& iOld < oldNearest.length; iNew++)`), building the populated arrays.  Each
iteration increments `iNew`, so the loop runs at most `n` times and fuel `n`
is exact.  The `oldError` parameter of the source function is never read by
its body and is omitted. -/
def makeRulerAux (s e : ℚ) (n : ℕ) (old : List ℚ) : ℕ → ℕ → ℕ → RulerOut
  | 0, _, _ => ⟨[], [], [], [], 0⟩
  | fuel + 1, iNew, iOld =>
    if iNew < n ∧ iOld < old.length then
      let curr := (e - s) * iNew / ((n : ℚ) - 1) + s
      let iOld' := advance curr old old.length iOld
      let err := |curr - getQ old iOld'|
      let rest := makeRulerAux s e n old fuel (iNew + 1) iOld'
      ⟨curr :: rest.newCoord, getQ old iOld' :: rest.newNearest, err :: rest.newError,
        (iOld' : ℤ) :: rest.newFrom, (if err = 0 then 1 else 0) + rest.cntExact⟩
    else ⟨[], [], [], [], 0⟩

/-- `ZoomerView.makeRuler`: sweep the `n` new coordinate stops of the range
`[s, e]` against the old `nearest` array.  The trailing `while (iNew <
newCoord.length)` "copy the only option" loop of the source never runs when
`old` is nonempty (the cursor `iOld` stays below `old.length`, so the main
loop exhausts all `n` stops); for `old = []` that trailing loop never
terminates (it does not increment `iNew`), so the model covers calls with a
nonempty old ruler, which is every call the program makes. -/
def makeRuler (s e : ℚ) (n : ℕ) (old : List ℚ) : RulerOut :=
  makeRulerAux s e n old n 0 0

/-- The logical coordinate of stop `i`: `(end - start) * iNew / (N - 1) + start`. -/
def coordAt (s e : ℚ) (n : ℕ) (i : ℕ) : ℚ := (e - s) * i / ((n : ℚ) - 1) + s

/-- Monotonically non-decreasing array, read through `getQ`. -/
def sortedLE (old : List ℚ) : Prop :=
  ∀ a b : ℕ, a ≤ b → b < old.length → getQ old a ≤ getQ old b

/-! Cursor lemmas for `advance`. -/

theorem advance_le (curr : ℚ) (old : List ℚ) :
    ∀ fuel iOld, iOld ≤ advance curr old fuel iOld := by
  intro fuel
  induction fuel with
  | zero => intro iOld; simp [advance]
  | succ fuel ih =>
    intro iOld
    simp only [advance]
    split
    · exact le_trans (Nat.le_succ iOld) (ih (iOld + 1))
    · exact le_refl iOld

theorem advance_lt (curr : ℚ) (old : List ℚ) :
    ∀ fuel iOld, iOld < old.length → advance curr old fuel iOld < old.length := by
  intro fuel
  induction fuel with
  | zero => intro iOld h; simpa [advance] using h
  | succ fuel ih =>
    intro iOld h
    simp only [advance]
    split
    · next hc => exact ih (iOld + 1) hc.1
    · exact h

theorem coordAt_mono (s e : ℚ) (n : ℕ) (hse : s ≤ e) (hn : 2 ≤ n) :
    ∀ i k : ℕ, i ≤ k → coordAt s e n i ≤ coordAt s e n k := by
  intro i k hik
  have h1 : (0 : ℚ) ≤ e - s := by linarith
  have h2 : (0 : ℚ) < (n : ℚ) - 1 := by
    have : (2 : ℚ) ≤ (n : ℚ) := by exact_mod_cast hn
    linarith
  have h3 : (i : ℚ) ≤ (k : ℚ) := by exact_mod_cast hik
  unfold coordAt
  have h4 : (e - s) * i ≤ (e - s) * k := mul_le_mul_of_nonneg_left h3 h1
  have h5 : (e - s) * i / ((n : ℚ) - 1) ≤ (e - s) * k / ((n : ℚ) - 1) := by gcongr
  linarith

theorem advance_exact (old : List ℚ) (hs : sortedLE old) (curr : ℚ) :
    ∀ fuel iOld, old.length ≤ fuel + iOld + 1 →
      (∃ j, iOld ≤ j ∧ j < old.length ∧ getQ old j = curr) →
      getQ old (advance curr old fuel iOld) = curr := by
  intro fuel
  induction fuel with
  | zero =>
    intro iOld hfuel ⟨j, hij, hjl, hje⟩
    have : j = iOld := by omega
    simpa [advance, this] using hje
  | succ fuel ih =>
    intro iOld hfuel ⟨j, hij, hjl, hje⟩
    simp only [advance]
    split
    · next hc =>
      apply ih (iOld + 1) (by omega)
      by_cases hcur : getQ old iOld = curr
      · have habs : |curr - getQ old (iOld + 1)| ≤ 0 := by
          have := hc.2
          rw [hcur] at this
          simpa using this
        have : getQ old (iOld + 1) = curr := by
          have h0 : curr - getQ old (iOld + 1) = 0 :=
            abs_eq_zero.mp (le_antisymm habs (abs_nonneg _))
          linarith
        exact ⟨iOld + 1, le_refl _, hc.1, this⟩
      · have hne : j ≠ iOld := fun h => hcur (h ▸ hje)
        exact ⟨j, by omega, hjl, hje⟩
    · next hc =>
      by_contra hcur
      have hne : j ≠ iOld := fun h => hcur (h ▸ hje)
      have hij1 : iOld + 1 ≤ j := by omega
      have hl1 : iOld + 1 < old.length := lt_of_le_of_lt hij1 hjl
      have ho1 : getQ old iOld ≤ getQ old (iOld + 1) := hs iOld (iOld + 1) (by omega) hl1
      have ho2 : getQ old (iOld + 1) ≤ curr := hje ▸ hs (iOld + 1) j hij1 hjl
      have ho3 : getQ old iOld ≤ curr := le_trans ho1 ho2
      apply hc
      constructor
      · exact hl1
      · rw [abs_of_nonneg (by linarith), abs_of_nonneg (by linarith)]
        linarith

theorem makeRulerAux_exact (s e : ℚ) (n : ℕ) (old : List ℚ) (hs : sortedLE old)
    (hse : s ≤ e) (hn : 2 ≤ n)
    (hmatch : ∀ i : ℕ, i < n → ∃ j, j < old.length ∧ getQ old j = coordAt s e n i) :
    ∀ fuel iNew iOld, n ≤ fuel + iNew → iOld < old.length →
      getQ old iOld ≤ coordAt s e n iNew →
      (∀ q ∈ (makeRulerAux s e n old fuel iNew iOld).newError, q = 0) ∧
      (makeRulerAux s e n old fuel iNew iOld).cntExact = n - iNew := by
  intro fuel
  induction fuel with
  | zero =>
    intro iNew iOld hfuel _ _
    have : ¬ iNew < n := by omega
    constructor
    · intro q hq
      simp [makeRulerAux] at hq
    · simp [makeRulerAux]
      omega
  | succ fuel ih =>
    intro iNew iOld hfuel hiOld hle
    by_cases hlt : iNew < n
    · have hcond : iNew < n ∧ iOld < old.length := ⟨hlt, hiOld⟩
      have hcurr : (e - s) * iNew / ((n : ℚ) - 1) + s = coordAt s e n iNew := rfl
      obtain ⟨j, hjl, hje⟩ := hmatch iNew hlt
      have hmge : ∃ j', iOld ≤ j' ∧ j' < old.length ∧ getQ old j' = coordAt s e n iNew := by
        by_cases hj : iOld ≤ j
        · exact ⟨j, hj, hjl, hje⟩
        · have h1 : getQ old j ≤ getQ old iOld := hs j iOld (by omega) hiOld
          have h2 : getQ old iOld = coordAt s e n iNew := le_antisymm hle (hje ▸ h1)
          exact ⟨iOld, le_refl _, hiOld, h2⟩
      have hadv : getQ old (advance (coordAt s e n iNew) old old.length iOld) =
          coordAt s e n iNew :=
        advance_exact old hs _ old.length iOld (by omega) hmge
      have hadvlt : advance (coordAt s e n iNew) old old.length iOld < old.length :=
        advance_lt _ old old.length iOld hiOld
      have hrest := ih (iNew + 1)
        (advance (coordAt s e n iNew) old old.length iOld) (by omega) hadvlt
        (by
          rw [hadv]
          exact coordAt_mono s e n hse hn iNew (iNew + 1) (Nat.le_succ _))
      simp only [makeRulerAux, if_pos hcond]
      rw [hcurr]
      constructor
      · intro q hq
        simp only [List.mem_cons] at hq
        rcases hq with hq | hq
        · rw [hq, hadv]
          simp
        · exact hrest.1 q hq
      · have herr : |coordAt s e n iNew - getQ old
            (advance (coordAt s e n iNew) old old.length iOld)| = 0 := by
          rw [hadv]; simp
        rw [herr]
        norm_num [hrest.2]
        omega
    · constructor
      · intro q hq
        simp [makeRulerAux, hlt] at hq
      · simp [makeRulerAux, hlt]
        omega

/-- C1: when every generated coordinate stop of the new ruler coincides with
some entry of the monotonically non-decreasing old `nearest` array (the range
`[s, e]` being oriented, as in every call the program makes), `makeRuler`
records error `0` at every stop and returns `n`, the full stop count, as its
exact-match count. -/
theorem makeRuler_exact_matches (s e : ℚ) (n : ℕ) (old : List ℚ)
    (hold : 1 ≤ old.length) (hs : sortedLE old) (hse : s ≤ e) (hn : 2 ≤ n)
    (hmatch : ∀ i : ℕ, i < n → ∃ j, j < old.length ∧ getQ old j = coordAt s e n i) :
    (∀ q ∈ (makeRuler s e n old).newError, q = 0) ∧
    (makeRuler s e n old).cntExact = n := by
  have h0 : getQ old 0 ≤ coordAt s e n 0 := by
    obtain ⟨j, hjl, hje⟩ := hmatch 0 (by omega)
    exact hje ▸ hs 0 j (Nat.zero_le _) hjl
  have := makeRulerAux_exact s e n old hs hse hn hmatch n 0 0 (by omega) (by omega) h0
  simpa [makeRuler] using this

/-- Witness for C1 at `[s, e] = [-1, 1]`, `n = 2`, `old = [-1, 1]`. -/
theorem makeRuler_exact_matches_witness :
    (∀ q ∈ (makeRuler (-1) 1 2 [-1, 1]).newError, q = 0) ∧
    (makeRuler (-1) 1 2 [-1, 1]).cntExact = 2 :=
  makeRuler_exact_matches (-1) 1 2 [-1, 1] (by norm_num)
    (by
      intro a b hab hb
      simp only [List.length_cons, List.length_nil] at hb
      interval_cases b <;> interval_cases a <;> norm_num [getQ])
    (by norm_num) (by norm_num)
    (by
      intro i hi
      interval_cases i
      · exact ⟨0, by norm_num, by norm_num [getQ, coordAt]⟩
      · exact ⟨1, by norm_num, by norm_num [getQ, coordAt]⟩)

theorem makeRulerAux_from_mem (s e : ℚ) (n : ℕ) (old : List ℚ) :
    ∀ fuel iNew iOld, ∀ x ∈ (makeRulerAux s e n old fuel iNew iOld).newFrom,
      (iOld : ℤ) ≤ x ∧ x < old.length := by
  intro fuel
  induction fuel with
  | zero =>
    intro iNew iOld x hx
    simp [makeRulerAux] at hx
  | succ fuel ih =>
    intro iNew iOld x hx
    by_cases hcond : iNew < n ∧ iOld < old.length
    · simp only [makeRulerAux, if_pos hcond, List.mem_cons] at hx
      rcases hx with hx | hx
      · subst hx
        constructor
        · exact_mod_cast advance_le _ old old.length iOld
        · exact_mod_cast advance_lt _ old old.length iOld hcond.2
      · have h := ih (iNew + 1) _ x hx
        constructor
        · have hadv : (iOld : ℤ) ≤
              (advance ((e - s) * iNew / ((n : ℚ) - 1) + s) old old.length iOld : ℤ) := by
            exact_mod_cast advance_le _ old old.length iOld
          exact le_trans hadv h.1
        · exact h.2
    · simp [makeRulerAux, if_neg hcond] at hx

theorem makeRulerAux_from_chain (s e : ℚ) (n : ℕ) (old : List ℚ) :
    ∀ fuel iNew iOld, List.Chain' (· ≤ ·) (makeRulerAux s e n old fuel iNew iOld).newFrom := by
  intro fuel
  induction fuel with
  | zero =>
    intro iNew iOld
    simp [makeRulerAux]
  | succ fuel ih =>
    intro iNew iOld
    by_cases hcond : iNew < n ∧ iOld < old.length
    · simp only [makeRulerAux, if_pos hcond]
      rw [List.chain'_cons']
      refine ⟨?_, ih (iNew + 1) _⟩
      intro b hb
      have hmem : b ∈ (makeRulerAux s e n old fuel (iNew + 1)
          (advance ((e - s) * iNew / ((n : ℚ) - 1) + s) old old.length iOld)).newFrom :=
        List.mem_of_mem_head? hb
      exact (makeRulerAux_from_mem s e n old fuel (iNew + 1) _ b hmem).1
    · simp [makeRulerAux, if_neg hcond]

/-- C10: every `from` index `makeRuler` produces lies in `[0, M)` where `M` is
the old axis length, the `from` sequence is monotonically non-decreasing, and
consequently every old-buffer index `yFrom[j] * oldPixelWidth + xFrom[i]` that
the `setPosition` warp reads (it reads them before the duplicate-marking
passes run) is within the bounds of the old `oldPixelWidth * oldPixelHeight`
pixel buffer. -/
theorem makeRuler_warp_reads_in_bounds (sx ex sy ey : ℚ) (nx ny : ℕ)
    (oldXNearest oldYNearest : List ℚ) (oldW oldH : ℕ)
    (hxl : oldXNearest.length = oldW) (hyl : oldYNearest.length = oldH) :
    (∀ x ∈ (makeRuler sx ex nx oldXNearest).newFrom, 0 ≤ x ∧ x < (oldW : ℤ)) ∧
    (∀ y ∈ (makeRuler sy ey ny oldYNearest).newFrom, 0 ≤ y ∧ y < (oldH : ℤ)) ∧
    List.Chain' (· ≤ ·) (makeRuler sx ex nx oldXNearest).newFrom ∧
    List.Chain' (· ≤ ·) (makeRuler sy ey ny oldYNearest).newFrom ∧
    (∀ y ∈ (makeRuler sy ey ny oldYNearest).newFrom,
      ∀ x ∈ (makeRuler sx ex nx oldXNearest).newFrom,
        0 ≤ y * (oldW : ℤ) + x ∧ y * (oldW : ℤ) + x < (oldW : ℤ) * (oldH : ℤ)) := by
  have hx : ∀ x ∈ (makeRuler sx ex nx oldXNearest).newFrom, 0 ≤ x ∧ x < (oldW : ℤ) := by
    intro x hxm
    have := makeRulerAux_from_mem sx ex nx oldXNearest nx 0 0 x hxm
    exact ⟨by exact_mod_cast this.1, hxl ▸ (by exact_mod_cast this.2)⟩
  have hy : ∀ y ∈ (makeRuler sy ey ny oldYNearest).newFrom, 0 ≤ y ∧ y < (oldH : ℤ) := by
    intro y hym
    have := makeRulerAux_from_mem sy ey ny oldYNearest ny 0 0 y hym
    exact ⟨by exact_mod_cast this.1, hyl ▸ (by exact_mod_cast this.2)⟩
  refine ⟨hx, hy, makeRulerAux_from_chain sx ex nx oldXNearest nx 0 0,
    makeRulerAux_from_chain sy ey ny oldYNearest ny 0 0, ?_⟩
  intro y hym x hxm
  obtain ⟨hy0, hyW⟩ := hy y hym
  obtain ⟨hx0, hxW⟩ := hx x hxm
  constructor
  · positivity
  · have h1 : y * (oldW : ℤ) + x < y * (oldW : ℤ) + oldW := by linarith
    have h2 : y * (oldW : ℤ) + (oldW : ℤ) = (y + 1) * oldW := by ring
    have h3 : (y + 1) * (oldW : ℤ) ≤ (oldH : ℤ) * oldW := by
      have : y + 1 ≤ (oldH : ℤ) := by omega
      exact mul_le_mul_of_nonneg_right this (by positivity)
    linarith

/-- Witness for C10 with a concrete ruler rebuild against an old axis of
length 2 and pixel buffer 2 by 2. -/
theorem makeRuler_warp_reads_in_bounds_witness :
    (∀ x ∈ (makeRuler 0 1 3 [0, 100]).newFrom, 0 ≤ x ∧ x < (2 : ℤ)) ∧
    (∀ y ∈ (makeRuler 0 1 3 [0, 1]).newFrom, 0 ≤ y ∧ y < (2 : ℤ)) ∧
    List.Chain' (· ≤ ·) (makeRuler 0 1 3 [0, 100]).newFrom ∧
    List.Chain' (· ≤ ·) (makeRuler 0 1 3 [0, 1]).newFrom ∧
    (∀ y ∈ (makeRuler 0 1 3 [0, 1]).newFrom, ∀ x ∈ (makeRuler 0 1 3 [0, 100]).newFrom,
      0 ≤ y * (2 : ℤ) + x ∧ y * (2 : ℤ) + x < (2 : ℤ) * (2 : ℤ)) :=
  makeRuler_warp_reads_in_bounds 0 1 0 1 3 3 [0, 100] [0, 1] 2 2 (by norm_num) (by norm_num)

/-!  ## `ZoomerFrame` and `ZoomerView` state (src/zoomer.js lines 60-185, 291-381)

Only the fields the claims touch are modelled; durations other than
`durationRENDER` play no role in any claim.  `view.pixels` in the source is an
alias of `view.frame.pixels`; the model reads and writes `frame.pixels`
directly. -/
structure ZoomerFrame where
  viewWidth : ℕ
  viewHeight : ℕ
  pixelWidth : ℕ
  pixelHeight : ℕ
  angle : ℚ
  pixels : List ℕ
  rgba : List ℕ
  palette : Option (List ℕ)
  timeExpire : ℤ
  durationRENDER : ℤ
  cntPixels : ℕ
  cntHLines : ℕ
  cntVLines : ℕ
  quality : ℚ
deriving Repr, DecidableEq

structure ZoomerView where
  viewWidth : ℕ
  viewHeight : ℕ
  pixelWidth : ℕ
  pixelHeight : ℕ
  centerX : ℚ
  centerY : ℚ
  radius : ℚ
  radiusViewHor : ℚ
  radiusViewVer : ℚ
  radiusPixelHor : ℚ
  radiusPixelVer : ℚ
  xCoord : List ℚ
  xNearest : List ℚ
  xError : List ℚ
  xFrom : List ℤ
  yCoord : List ℚ
  yNearest : List ℚ
  yError : List ℚ
  yFrom : List ℤ
  frame : ZoomerFrame
deriving Repr, DecidableEq

/-- Horizontal pixel-border radius of `setPosition` (src/zoomer.js lines
463-475): landscape divides by the view height, portrait by the view width. -/
def radiusPixelHorOf (v : ZoomerView) (radius : ℚ) : ℚ :=
  if v.viewHeight < v.viewWidth then radius * v.pixelWidth / v.viewHeight
  else radius * v.pixelWidth / v.viewWidth

/-- Vertical pixel-border radius of `setPosition` (src/zoomer.js lines 463-475). -/
def radiusPixelVerOf (v : ZoomerView) (radius : ℚ) : ℚ :=
  if v.viewHeight < v.viewWidth then radius * v.pixelHeight / v.viewHeight
  else radius * v.pixelHeight / v.viewWidth

/-- Horizontal view-border radius (src/zoomer.js lines 463-475). -/
def radiusViewHorOf (v : ZoomerView) (radius : ℚ) : ℚ :=
  if v.viewHeight < v.viewWidth then radius * v.viewWidth / v.viewHeight else radius

/-- Vertical view-border radius (src/zoomer.js lines 463-475). -/
def radiusViewVerOf (v : ZoomerView) (radius : ℚ) : ℚ :=
  if v.viewHeight < v.viewWidth then radius else radius * v.viewHeight / v.viewWidth

/-!  ## Pixel inheritance warp (src/zoomer.js lines 514-541) -/

/-- One warped row: `pixels[ji++] = oldPixels[yFrom[j] * oldPixelWidth + xFrom[i]]`
for `i < pixelWidth`. -/
def warpRow (oldPixels : List ℕ) (oldW w : ℕ) (yf : ℤ) (xF : List ℤ) : List ℕ :=
  (List.range w).map fun i => getPixZ oldPixels (yf * oldW + xF.getD i 0)

/-- Rows `1 .. h-1` of the warp: a row whose `yFrom` equals the previous row's
`yFrom` is block-copied from the row just written (`pixels.copyWithin`), any
other row is re-gathered from the old buffer.  One recursion step per row, so
fuel is the number of remaining rows. -/
def warpRowsAux (oldPixels : List ℕ) (oldW w : ℕ) (xF yF : List ℤ) :
    ℕ → ℕ → List ℕ → List (List ℕ)
  | 0, _, _ => []
  | fuel + 1, j, prevRow =>
    if yF.getD j 0 = yF.getD (j - 1) 0 then
      prevRow :: warpRowsAux oldPixels oldW w xF yF fuel (j + 1) prevRow
    else
      let row := warpRow oldPixels oldW w (yF.getD j 0) xF
      row :: warpRowsAux oldPixels oldW w xF yF fuel (j + 1) row

/-- The full warp: first row gathered unconditionally, rows `1 .. h-1` by
`warpRowsAux`, flattened into the row-major pixel buffer. -/
def warpPixels (oldPixels : List ℕ) (oldW w h : ℕ) (xF yF : List ℤ) : List ℕ :=
  if h = 0 then []
  else
    let row0 := warpRow oldPixels oldW w (yF.getD 0 0) xF
    (row0 :: warpRowsAux oldPixels oldW w xF yF (h - 1) 1 row0).flatten

/-!  ## Duplicate marking (src/zoomer.js lines 543-559)

`for (i = 1; i < len; i++) if (from[i-1] === from[i] && error[i-1] > error[i])
from[i-1] = -1;` and the mirrored backward pass. -/

/-- One forward-pass step at loop index `i`. -/
def mfStep (err : List ℚ) (i : ℕ) (f : List ℤ) : List ℤ :=
  if f.getD (i - 1) 0 = f.getD i 0 ∧ getQ err i < getQ err (i - 1) then
    f.set (i - 1) (-1)
  else f

/-- Forward pass, loop index `i` ascending from 1 while `i < length`; one step
per unit of fuel, so fuel `length` covers the whole loop. -/
def markForwardAux (err : List ℚ) : ℕ → ℕ → List ℤ → List ℤ
  | 0, _, f => f
  | fuel + 1, i, f =>
    if i < f.length then markForwardAux err fuel (i + 1) (mfStep err i f) else f

def markForward (err : List ℚ) (f : List ℤ) : List ℤ :=
  markForwardAux err f.length 1 f

/-- One backward-pass step at loop index `i` (compares `i+1` against `i` and
marks `i+1`). -/
def mbStep (err : List ℚ) (i : ℕ) (f : List ℤ) : List ℤ :=
  if f.getD (i + 1) 0 = f.getD i 0 ∧ getQ err i < getQ err (i + 1) then
    f.set (i + 1) (-1)
  else f

/-- Backward pass body, loop index descending to 0 (structural recursion on
the index itself). -/
def markBackwardAux (err : List ℚ) : ℕ → List ℤ → List ℤ
  | 0, f => mbStep err 0 f
  | i + 1, f => markBackwardAux err i (mbStep err (i + 1) f)

/-- Backward pass, `for (i = len - 2; i >= 0; i--)`; no iteration when the
array has fewer than two entries. -/
def markBackward (err : List ℚ) (f : List ℤ) : List ℤ :=
  if 2 ≤ f.length then markBackwardAux err (f.length - 2) f else f

/-- `ZoomerView.setPosition` with a previous view (src/zoomer.js lines
449-563): bind the frame, compute the border radii, rebuild both rulers with
`makeRuler`, accumulate the exact counts into the frame statistics, warp the
previous frame's pixels through the rulers, run the duplicate-marking passes,
and refresh `quality = cntPixels / (pixelWidth * pixelHeight)` (the frame's
dimensions). -/
def setPosition (v : ZoomerView) (frame : ZoomerFrame) (centerX centerY radius : ℚ)
    (prev : ZoomerView) : ZoomerView :=
  let rPH := radiusPixelHorOf v radius
  let rPV := radiusPixelVerOf v radius
  let rx := makeRuler (centerX - rPH) (centerX + rPH) v.xCoord.length prev.xNearest
  let ry := makeRuler (centerY - rPV) (centerY + rPV) v.yCoord.length prev.yNearest
  let cntPixels' := frame.cntPixels + rx.cntExact * ry.cntExact
  let pixels' := warpPixels prev.frame.pixels prev.pixelWidth v.pixelWidth v.pixelHeight
    rx.newFrom ry.newFrom
  let xFrom' := markBackward rx.newError (markForward rx.newError rx.newFrom)
  let yFrom' := markBackward ry.newError (markForward ry.newError ry.newFrom)
  { v with
    centerX := centerX, centerY := centerY, radius := radius,
    radiusViewHor := radiusViewHorOf v radius, radiusViewVer := radiusViewVerOf v radius,
    radiusPixelHor := rPH, radiusPixelVer := rPV,
    xCoord := rx.newCoord, xNearest := rx.newNearest, xError := rx.newError, xFrom := xFrom',
    yCoord := ry.newCoord, yNearest := ry.newNearest, yError := ry.newError, yFrom := yFrom',
    frame := { frame with
      pixels := pixels',
      cntPixels := cntPixels',
      cntHLines := frame.cntHLines + rx.cntExact,
      cntVLines := frame.cntVLines + ry.cntExact,
      quality := (cntPixels' : ℚ) / ((frame.pixelWidth : ℚ) * frame.pixelHeight) } }

/-- `ZoomerView.setPosition` with `previousView` null (src/zoomer.js lines
482-496).  The x loop fills `xCoord`, `xNearest`, `xError`, `xFrom` linearly.
The y loop body is `yNearest[i] = yCoord[i] = i * ... ; yError[j] = 0;
yFrom[j] = -1;` — but `i` is the x loop's variable, which is out of scope
(`let i`), so the first y-loop iteration throws a `ReferenceError` and the
call never completes; `none` models the thrown exception.  When the y ruler
is empty the loop body never runs and the call returns normally. -/
def setPositionNoPrev (v : ZoomerView) (frame : ZoomerFrame)
    (centerX centerY radius : ℚ) : Option ZoomerView :=
  let rPH := radiusPixelHorOf v radius
  let rPV := radiusPixelVerOf v radius
  let pixelMinX := centerX - rPH
  let pixelMaxX := centerX + rPH
  let xLen := v.xCoord.length
  let xCoord' := (List.range xLen).map fun i =>
    (i : ℚ) * (pixelMaxX - pixelMinX) / (xLen : ℚ) + pixelMinX
  let v' := { v with
    centerX := centerX, centerY := centerY, radius := radius,
    radiusViewHor := radiusViewHorOf v radius, radiusViewVer := radiusViewVerOf v radius,
    radiusPixelHor := rPH, radiusPixelVer := rPV,
    xCoord := xCoord', xNearest := xCoord',
    xError := List.replicate xLen 0, xFrom := List.replicate xLen (-1),
    frame := frame }
  if v.yCoord.length = 0 then some v' else none

/-- A bare 2-by-2 test frame holding the given pixel buffer. -/
def frameBlank (px : List ℕ) : ZoomerFrame :=
  ⟨2, 2, 2, 2, 0, px, [], none, 0, 0, 0, 0, 0, 0⟩

/-- A 2-by-2 test view with the given ruler `nearest` arrays and pixels. -/
def view22 (xN yN : List ℚ) (px : List ℕ) : ZoomerView :=
  ⟨2, 2, 2, 2, 0, 0, 1, 0, 0, 0, 0, [0, 0], xN, [0, 0], [0, 0], [0, 0], yN, [0, 0], [0, 0],
    frameBlank px⟩

/-- C4: calling `setPosition` without a previous view never yields an
initialized view — the y-axis initialization loop reads the out-of-scope
variable `i` (src/zoomer.js line 490, `yNearest[i] = yCoord[i] = i * ...`
inside the `j` loop) and throws a `ReferenceError`, so the y ruler is never
linearly initialized, contradicting the specified linear initialization of
both axes. -/
theorem setPositionNoPrev_throws :
    setPositionNoPrev (view22 [0, 1] [0, 1] [0, 0, 0, 0]) (frameBlank [0, 0, 0, 0]) 0 0 2
      = none := rfl

/-! Constant-colour warp preservation (claim C6). -/

theorem getD_from_bound (f : List ℤ) (M : ℕ) (hM : 1 ≤ M)
    (hmem : ∀ x ∈ f, 0 ≤ x ∧ x < (M : ℤ)) (i : ℕ) :
    0 ≤ f.getD i 0 ∧ f.getD i 0 < (M : ℤ) := by
  by_cases h : i < f.length
  · rw [List.getD_eq_getElem _ _ h]
    exact hmem _ (List.getElem_mem h)
  · rw [List.getD_eq_default _ _ (le_of_not_lt h)]
    exact ⟨le_refl 0, by exact_mod_cast hM⟩

theorem warp_index_bound (yf x : ℤ) (oldW oldH : ℕ)
    (hy0 : 0 ≤ yf) (hyH : yf < (oldH : ℤ)) (hx0 : 0 ≤ x) (hxW : x < (oldW : ℤ)) :
    0 ≤ yf * oldW + x ∧ yf * oldW + x < (oldW : ℤ) * oldH := by
  constructor
  · positivity
  · have h1 : yf * (oldW : ℤ) + x < yf * oldW + oldW := by linarith
    have h2 : yf * (oldW : ℤ) + (oldW : ℤ) = (yf + 1) * oldW := by ring
    have h3 : (yf + 1) * (oldW : ℤ) ≤ (oldH : ℤ) * oldW := by
      have : yf + 1 ≤ (oldH : ℤ) := by omega
      exact mul_le_mul_of_nonneg_right this (by positivity)
    linarith

theorem getPixZ_const (px : List ℕ) (c : ℕ) (hconst : ∀ p ∈ px, p = c)
    (idx : ℤ) (h0 : 0 ≤ idx) (hl : idx < (px.length : ℤ)) :
    getPixZ px idx = c := by
  have hn : idx.toNat < px.length := by omega
  rw [getPixZ, if_pos h0, List.getD_eq_getElem _ _ hn]
  exact hconst _ (List.getElem_mem hn)

theorem warpRow_const (px : List ℕ) (c oldW oldH w : ℕ)
    (hlen : px.length = oldW * oldH) (hconst : ∀ p ∈ px, p = c)
    (yf : ℤ) (hy0 : 0 ≤ yf) (hyH : yf < (oldH : ℤ))
    (xF : List ℤ) (hxF : ∀ i : ℕ, 0 ≤ xF.getD i 0 ∧ xF.getD i 0 < (oldW : ℤ)) :
    ∀ p ∈ warpRow px oldW w yf xF, p = c := by
  intro p hp
  simp only [warpRow, List.mem_map, List.mem_range] at hp
  obtain ⟨i, _, rfl⟩ := hp
  obtain ⟨hi0, hiW⟩ := hxF i
  obtain ⟨hb0, hbl⟩ := warp_index_bound yf (xF.getD i 0) oldW oldH hy0 hyH hi0 hiW
  exact getPixZ_const px c hconst _ hb0 (by rw [hlen]; exact_mod_cast hbl)

theorem warpRowsAux_const (px : List ℕ) (c oldW oldH w : ℕ)
    (hlen : px.length = oldW * oldH) (hconst : ∀ p ∈ px, p = c) (hH : 1 ≤ oldH)
    (xF yF : List ℤ)
    (hxF : ∀ i : ℕ, 0 ≤ xF.getD i 0 ∧ xF.getD i 0 < (oldW : ℤ))
    (hyF : ∀ j : ℕ, 0 ≤ yF.getD j 0 ∧ yF.getD j 0 < (oldH : ℤ)) :
    ∀ fuel j prevRow, (∀ p ∈ prevRow, p = c) →
      ∀ row ∈ warpRowsAux px oldW w xF yF fuel j prevRow, ∀ p ∈ row, p = c := by
  intro fuel
  induction fuel with
  | zero =>
    intro j prevRow _ row hrow
    simp [warpRowsAux] at hrow
  | succ fuel ih =>
    intro j prevRow hprev row hrow
    simp only [warpRowsAux] at hrow
    split at hrow
    · rcases List.mem_cons.mp hrow with h | h
      · exact h ▸ hprev
      · exact ih (j + 1) prevRow hprev row h
    · rcases List.mem_cons.mp hrow with h | h
      · exact h ▸ warpRow_const px c oldW oldH w hlen hconst _ (hyF j).1 (hyF j).2 xF hxF
      · exact ih (j + 1) _ (warpRow_const px c oldW oldH w hlen hconst _ (hyF j).1
          (hyF j).2 xF hxF) row h

theorem warpPixels_const (px : List ℕ) (c oldW oldH w h : ℕ)
    (hlen : px.length = oldW * oldH) (hconst : ∀ p ∈ px, p = c)
    (hW : 1 ≤ oldW) (hH : 1 ≤ oldH) (xF yF : List ℤ)
    (hxm : ∀ x ∈ xF, 0 ≤ x ∧ x < (oldW : ℤ)) (hym : ∀ y ∈ yF, 0 ≤ y ∧ y < (oldH : ℤ)) :
    ∀ p ∈ warpPixels px oldW w h xF yF, p = c := by
  have hxF : ∀ i : ℕ, 0 ≤ xF.getD i 0 ∧ xF.getD i 0 < (oldW : ℤ) :=
    getD_from_bound xF oldW hW hxm
  have hyF : ∀ j : ℕ, 0 ≤ yF.getD j 0 ∧ yF.getD j 0 < (oldH : ℤ) :=
    getD_from_bound yF oldH hH hym
  intro p hp
  by_cases hh : h = 0
  · simp [warpPixels, hh] at hp
  · simp only [warpPixels, if_neg hh, List.mem_flatten] at hp
    obtain ⟨row, hrow, hpin⟩ := hp
    rcases List.mem_cons.mp hrow with h1 | h1
    · exact warpRow_const px c oldW oldH w hlen hconst _ (hyF 0).1 (hyF 0).2 xF hxF p
        (h1 ▸ hpin)
    · exact warpRowsAux_const px c oldW oldH w hlen hconst hH xF yF hxF hyF (h - 1) 1 _
        (warpRow_const px c oldW oldH w hlen hconst _ (hyF 0).1 (hyF 0).2 xF hxF)
        row h1 p hpin

/-- C6: if every pixel of the previous view's frame equals `c`, then after
`setPosition` against that previous view every pixel of the newly bound
frame's buffer equals `c`, whatever the new `centerX`, `centerY`, `radius`. -/
theorem setPosition_const_colour (v : ZoomerView) (frame : ZoomerFrame)
    (cx cy r : ℚ) (prev : ZoomerView) (c : ℕ)
    (hW : 1 ≤ prev.pixelWidth) (hH : 1 ≤ prev.pixelHeight)
    (hxn : prev.xNearest.length = prev.pixelWidth)
    (hyn : prev.yNearest.length = prev.pixelHeight)
    (hlen : prev.frame.pixels.length = prev.pixelWidth * prev.pixelHeight)
    (hconst : ∀ p ∈ prev.frame.pixels, p = c) :
    ∀ p ∈ (setPosition v frame cx cy r prev).frame.pixels, p = c := by
  intro p hp
  simp only [setPosition] at hp
  apply warpPixels_const prev.frame.pixels c prev.pixelWidth prev.pixelHeight
    v.pixelWidth v.pixelHeight hlen hconst hW hH _ _ ?_ ?_ p hp
  · intro x hx
    have := makeRulerAux_from_mem _ _ v.xCoord.length prev.xNearest _ 0 0 x hx
    exact ⟨by exact_mod_cast this.1, hxn ▸ (by exact_mod_cast this.2)⟩
  · intro y hy
    have := makeRulerAux_from_mem _ _ v.yCoord.length prev.yNearest _ 0 0 y hy
    exact ⟨by exact_mod_cast this.1, hyn ▸ (by exact_mod_cast this.2)⟩

/-- Witness for C6: a 2-by-2 previous view filled with colour 7, repositioned
to a different center and radius. -/
theorem setPosition_const_colour_witness :
    ((setPosition (view22 [0, 0] [0, 0] [0, 0, 0, 0]) (frameBlank [])
      5 (-3) (1/2) (view22 [0, 1] [0, 1] [7, 7, 7, 7])).frame.pixels.all
        fun p => p == 7) = true := by
  have h := setPosition_const_colour (view22 [0, 0] [0, 0] [0, 0, 0, 0]) (frameBlank [])
    5 (-3) (1/2) (view22 [0, 1] [0, 1] [7, 7, 7, 7]) 7 (by norm_num [view22])
    (by norm_num [view22]) (by simp [view22]) (by simp [view22])
    (by simp [view22, frameBlank]) (by decide)
  exact List.all_eq_true.mpr fun x hx => by simp [h x hx]

/-! Pointwise characterization of the duplicate-marking passes (claim C2). -/

theorem getD_set_ne {α : Type} (l : List α) (d : α) (i j : ℕ) (a : α) (h : i ≠ j) :
    (l.set i a).getD j d = l.getD j d := by
  by_cases hj : j < l.length
  · rw [List.getD_eq_getElem _ _ (by simpa using hj), List.getD_eq_getElem _ _ hj]
    exact List.getElem_set_ne h _
  · rw [List.getD_eq_default _ _ (by simpa using le_of_not_lt hj),
      List.getD_eq_default _ _ (le_of_not_lt hj)]

theorem getD_set_self {α : Type} (l : List α) (d : α) (i : ℕ) (a : α) (h : i < l.length) :
    (l.set i a).getD i d = a := by
  rw [List.getD_eq_getElem _ _ (by simpa using h)]
  exact List.getElem_set_self (by simpa using h)

theorem mfStep_length (err : List ℚ) (i : ℕ) (g : List ℤ) :
    (mfStep err i g).length = g.length := by
  unfold mfStep
  split <;> simp

theorem mbStep_length (err : List ℚ) (i : ℕ) (g : List ℤ) :
    (mbStep err i g).length = g.length := by
  unfold mbStep
  split <;> simp

theorem markForwardAux_length (err : List ℚ) :
    ∀ fuel i g, (markForwardAux err fuel i g).length = g.length := by
  intro fuel
  induction fuel with
  | zero => intro i g; simp [markForwardAux]
  | succ fuel ih =>
    intro i g
    simp only [markForwardAux]
    split
    · rw [ih, mfStep_length]
    · rfl

theorem markForwardAux_stable_low (err : List ℚ) :
    ∀ fuel i g k, k + 1 < i → (markForwardAux err fuel i g).getD k 0 = g.getD k 0 := by
  intro fuel
  induction fuel with
  | zero => intro i g k _; simp [markForwardAux]
  | succ fuel ih =>
    intro i g k h
    simp only [markForwardAux]
    split
    · rw [ih (i + 1) _ k (by omega)]
      unfold mfStep
      split
      · exact getD_set_ne _ _ _ _ _ (by omega)
      · rfl
    · rfl

theorem markForwardAux_char (err : List ℚ) (f : List ℤ) :
    ∀ fuel i g, g.length = f.length → 1 ≤ i → f.length ≤ fuel + i →
      (∀ m : ℕ, i - 1 ≤ m → g.getD m 0 = f.getD m 0) →
      ∀ k, i - 1 ≤ k →
        ((k + 1 < f.length ∧ f.getD k 0 = f.getD (k + 1) 0 ∧ getQ err (k + 1) < getQ err k) →
          (markForwardAux err fuel i g).getD k 0 = -1) ∧
        (¬(k + 1 < f.length ∧ f.getD k 0 = f.getD (k + 1) 0 ∧ getQ err (k + 1) < getQ err k) →
          (markForwardAux err fuel i g).getD k 0 = f.getD k 0) := by
  intro fuel
  induction fuel with
  | zero =>
    intro i g hlen hi hfuel hg k hk
    constructor
    · rintro ⟨h1, -, -⟩
      omega
    · intro _
      simp only [markForwardAux]
      exact hg k hk
  | succ fuel ih =>
    intro i g hlen hi hfuel hg k hk
    simp only [markForwardAux]
    by_cases hlt : i < g.length
    · rw [if_pos hlt]
      have hg' : ∀ m : ℕ, (i + 1) - 1 ≤ m → (mfStep err i g).getD m 0 = f.getD m 0 := by
        intro m hm
        unfold mfStep
        split
        · rw [getD_set_ne _ _ _ _ _ (by omega)]
          exact hg m (by omega)
        · exact hg m (by omega)
      have hlen' : (mfStep err i g).length = f.length := by rw [mfStep_length]; exact hlen
      by_cases hki : i ≤ k
      · exact ih (i + 1) _ hlen' (by omega) (by omega) hg' k (by omega)
      · have hkeq : k = i - 1 := by omega
        subst hkeq
        have hstab := markForwardAux_stable_low err fuel (i + 1) (mfStep err i g) (i - 1)
          (by omega)
        rw [hstab]
        have hg1 : g.getD (i - 1) 0 = f.getD (i - 1) 0 := hg _ (le_refl _)
        have hg2 : g.getD i 0 = f.getD i 0 := hg _ (by omega)
        have hieq : i - 1 + 1 = i := by omega
        constructor
        · rintro ⟨-, hfe, hfer⟩
          rw [hieq] at hfe hfer
          have hc : g.getD (i - 1) 0 = g.getD i 0 ∧ getQ err i < getQ err (i - 1) := by
            rw [hg1, hg2]
            exact ⟨hfe, hfer⟩
          unfold mfStep
          rw [if_pos hc]
          exact getD_set_self _ _ _ _ (by omega)
        · intro hnc
          unfold mfStep
          have hc : ¬(g.getD (i - 1) 0 = g.getD i 0 ∧ getQ err i < getQ err (i - 1)) := by
            rintro ⟨he, her⟩
            rw [hg1, hg2] at he
            apply hnc
            rw [hieq]
            exact ⟨by omega, he, her⟩
          rw [if_neg hc]
          exact hg1
    · rw [if_neg hlt]
      constructor
      · rintro ⟨h1, -, -⟩
        omega
      · intro _
        exact hg k hk

theorem markForward_length (err : List ℚ) (f : List ℤ) :
    (markForward err f).length = f.length := by
  rw [markForward, markForwardAux_length]

theorem markForward_char (err : List ℚ) (f : List ℤ) (k : ℕ) :
    ((k + 1 < f.length ∧ f.getD k 0 = f.getD (k + 1) 0 ∧ getQ err (k + 1) < getQ err k) →
      (markForward err f).getD k 0 = -1) ∧
    (¬(k + 1 < f.length ∧ f.getD k 0 = f.getD (k + 1) 0 ∧ getQ err (k + 1) < getQ err k) →
      (markForward err f).getD k 0 = f.getD k 0) :=
  markForwardAux_char err f f.length 1 f rfl (le_refl 1) (by omega)
    (fun _ _ => rfl) k (by omega)

theorem markBackwardAux_length (err : List ℚ) :
    ∀ i g, (markBackwardAux err i g).length = g.length := by
  intro i
  induction i with
  | zero => intro g; simp only [markBackwardAux]; exact mbStep_length err 0 g
  | succ i ih =>
    intro g
    simp only [markBackwardAux]
    rw [ih, mbStep_length]

theorem markBackwardAux_stable_high (err : List ℚ) :
    ∀ i g k, i + 1 < k → (markBackwardAux err i g).getD k 0 = g.getD k 0 := by
  intro i
  induction i with
  | zero =>
    intro g k h
    simp only [markBackwardAux]
    unfold mbStep
    split
    · exact getD_set_ne _ _ _ _ _ (by omega)
    · rfl
  | succ i ih =>
    intro g k h
    simp only [markBackwardAux]
    rw [ih _ k (by omega)]
    unfold mbStep
    split
    · exact getD_set_ne _ _ _ _ _ (by omega)
    · rfl

theorem markBackwardAux_char (err : List ℚ) (F : List ℤ) :
    ∀ i g, g.length = F.length → (∀ m : ℕ, m ≤ i + 1 → g.getD m 0 = F.getD m 0) →
      ∀ k, k ≤ i + 1 →
        ((1 ≤ k ∧ k < F.length ∧ F.getD k 0 = F.getD (k - 1) 0 ∧
            getQ err (k - 1) < getQ err k) →
          (markBackwardAux err i g).getD k 0 = -1) ∧
        (¬(1 ≤ k ∧ k < F.length ∧ F.getD k 0 = F.getD (k - 1) 0 ∧
            getQ err (k - 1) < getQ err k) →
          (markBackwardAux err i g).getD k 0 = F.getD k 0) := by
  intro i
  induction i with
  | zero =>
    intro g hlen hg k hk
    simp only [markBackwardAux]
    rcases Nat.le_one_iff_eq_zero_or_eq_one.mp hk with hk0 | hk1
    · subst hk0
      constructor
      · rintro ⟨h1, -⟩
        omega
      · intro _
        unfold mbStep
        split
        · rw [getD_set_ne _ _ _ _ _ (by omega)]
          exact hg 0 (by omega)
        · exact hg 0 (by omega)
    · subst hk1
      have hg0 : g.getD 0 0 = F.getD 0 0 := hg 0 (by omega)
      have hg1 : g.getD 1 0 = F.getD 1 0 := hg 1 (by omega)
      constructor
      · rintro ⟨-, hfl, hfe, hfer⟩
        have hc : g.getD 1 0 = g.getD 0 0 ∧ getQ err 0 < getQ err 1 := by
          rw [hg0, hg1]
          exact ⟨hfe, hfer⟩
        unfold mbStep
        rw [if_pos hc]
        exact getD_set_self _ _ _ _ (by omega)
      · intro hnc
        unfold mbStep
        split
        · next hc =>
          rw [hg0, hg1] at hc
          have hfl : ¬(1 < F.length) := fun hl => hnc ⟨by omega, hl, hc.1, hc.2⟩
          rw [List.getD_eq_default _ _ (by simp; omega),
            List.getD_eq_default _ _ (by omega)]
        · exact hg1
  | succ i ih =>
    intro g hlen hg k hk
    simp only [markBackwardAux]
    have hg' : ∀ m : ℕ, m ≤ i + 1 → (mbStep err (i + 1) g).getD m 0 = F.getD m 0 := by
      intro m hm
      unfold mbStep
      split
      · rw [getD_set_ne _ _ _ _ _ (by omega)]
        exact hg m (by omega)
      · exact hg m (by omega)
    have hlen' : (mbStep err (i + 1) g).length = F.length := by
      rw [mbStep_length]; exact hlen
    by_cases hki : k ≤ i + 1
    · exact ih _ hlen' hg' k hki
    · have hkeq : k = i + 2 := by omega
      subst hkeq
      rw [markBackwardAux_stable_high err i _ (i + 2) (by omega)]
      have hga : g.getD (i + 2) 0 = F.getD (i + 2) 0 := hg _ (by omega)
      have hgb : g.getD (i + 1) 0 = F.getD (i + 1) 0 := hg _ (by omega)
      have hieq : i + 2 - 1 = i + 1 := by omega
      constructor
      · rintro ⟨-, hfl, hfe, hfer⟩
        rw [hieq] at hfe hfer
        have hc : g.getD (i + 2) 0 = g.getD (i + 1) 0 ∧
            getQ err (i + 1) < getQ err (i + 2) := by
          rw [hga, hgb]
          exact ⟨hfe, hfer⟩
        unfold mbStep
        rw [if_pos hc]
        exact getD_set_self _ _ _ _ (by omega)
      · intro hnc
        unfold mbStep
        split
        · next hc =>
          rw [hga, hgb] at hc
          have hfl : ¬(i + 2 < F.length) := by
            intro hl
            exact hnc ⟨by omega, hl, by rw [hieq]; exact hc.1, by rw [hieq]; exact hc.2⟩
          rw [List.getD_eq_default _ _ (by simp; omega),
            List.getD_eq_default _ _ (by omega)]
        · exact hga

theorem markBackward_length (err : List ℚ) (F : List ℤ) :
    (markBackward err F).length = F.length := by
  rw [markBackward]
  split
  · rw [markBackwardAux_length]
  · rfl

theorem markBackward_char (err : List ℚ) (F : List ℤ) (k : ℕ) :
    ((1 ≤ k ∧ k < F.length ∧ F.getD k 0 = F.getD (k - 1) 0 ∧
        getQ err (k - 1) < getQ err k) →
      (markBackward err F).getD k 0 = -1) ∧
    (¬(1 ≤ k ∧ k < F.length ∧ F.getD k 0 = F.getD (k - 1) 0 ∧
        getQ err (k - 1) < getQ err k) →
      (markBackward err F).getD k 0 = F.getD k 0) := by
  rw [markBackward]
  by_cases h2 : 2 ≤ F.length
  · rw [if_pos h2]
    by_cases hk : k < F.length
    · exact markBackwardAux_char err F (F.length - 2) F rfl (fun _ _ => rfl) k (by omega)
    · constructor
      · rintro ⟨-, hfl, -⟩
        omega
      · intro _
        exact markBackwardAux_stable_high err (F.length - 2) F k (by omega)
  · rw [if_neg h2]
    constructor
    · rintro ⟨h1, hfl, -⟩
      omega
    · intro _
      rfl

theorem markPasses_spec (err : List ℚ) (f : List ℤ) (hnn : ∀ m : ℕ, 0 ≤ f.getD m 0)
    (k : ℕ) :
    ((markBackward err (markForward err f)).getD k 0 ≠ f.getD k 0 →
      (k + 1 < f.length ∧ f.getD (k + 1) 0 = f.getD k 0 ∧ getQ err (k + 1) < getQ err k) ∨
      (1 ≤ k ∧ f.getD (k - 1) 0 = f.getD k 0 ∧ getQ err (k - 1) < getQ err k)) ∧
    (((k + 1 < f.length → f.getD (k + 1) 0 = f.getD k 0 → getQ err k ≤ getQ err (k + 1)) ∧
      (1 ≤ k → f.getD (k - 1) 0 = f.getD k 0 → getQ err k ≤ getQ err (k - 1))) →
      (markBackward err (markForward err f)).getD k 0 = f.getD k 0) ∧
    (1 ≤ k → k + 1 < f.length → f.getD (k - 1) 0 = f.getD k 0 →
      f.getD (k + 1) 0 = f.getD k 0 → getQ err (k + 1) < getQ err k →
      getQ err (k - 1) < getQ err k →
      (markBackward err (markForward err f)).getD k 0 = -1) := by
  have hlenF : (markForward err f).length = f.length := markForward_length err f
  refine ⟨?_, ?_, ?_⟩
  · intro hne
    by_cases bc : 1 ≤ k ∧ k < (markForward err f).length ∧
        (markForward err f).getD k 0 = (markForward err f).getD (k - 1) 0 ∧
        getQ err (k - 1) < getQ err k
    · by_cases fc : k + 1 < f.length ∧ f.getD k 0 = f.getD (k + 1) 0 ∧
          getQ err (k + 1) < getQ err k
      · exact Or.inl ⟨fc.1, fc.2.1.symm, fc.2.2⟩
      · have hFk : (markForward err f).getD k 0 = f.getD k 0 :=
          (markForward_char err f k).2 fc
        have hFk1 : (markForward err f).getD (k - 1) 0 = f.getD k 0 := by
          rw [← bc.2.2.1, hFk]
        by_cases fc1 : (k - 1) + 1 < f.length ∧ f.getD (k - 1) 0 = f.getD (k - 1 + 1) 0 ∧
            getQ err (k - 1 + 1) < getQ err (k - 1)
        · have : (markForward err f).getD (k - 1) 0 = -1 :=
            (markForward_char err f (k - 1)).1 fc1
          rw [this] at hFk1
          have := hnn k
          omega
        · have : (markForward err f).getD (k - 1) 0 = f.getD (k - 1) 0 :=
            (markForward_char err f (k - 1)).2 fc1
          rw [this] at hFk1
          exact Or.inr ⟨bc.1, hFk1, bc.2.2.2⟩
    · have hR : (markBackward err (markForward err f)).getD k 0 =
          (markForward err f).getD k 0 :=
        (markBackward_char err (markForward err f) k).2 bc
      rw [hR] at hne
      by_cases fc : k + 1 < f.length ∧ f.getD k 0 = f.getD (k + 1) 0 ∧
          getQ err (k + 1) < getQ err k
      · exact Or.inl ⟨fc.1, fc.2.1.symm, fc.2.2⟩
      · exact absurd ((markForward_char err f k).2 fc) hne
  · rintro ⟨hright, hleft⟩
    have fc : ¬(k + 1 < f.length ∧ f.getD k 0 = f.getD (k + 1) 0 ∧
        getQ err (k + 1) < getQ err k) := by
      rintro ⟨h1, h2, h3⟩
      exact absurd h3 (not_lt.mpr (hright h1 h2.symm))
    have hFk : (markForward err f).getD k 0 = f.getD k 0 :=
      (markForward_char err f k).2 fc
    have bc : ¬(1 ≤ k ∧ k < (markForward err f).length ∧
        (markForward err f).getD k 0 = (markForward err f).getD (k - 1) 0 ∧
        getQ err (k - 1) < getQ err k) := by
      rintro ⟨h1, h2, h3, h4⟩
      have hFk1 : (markForward err f).getD (k - 1) 0 = f.getD k 0 := by
        rw [← h3, hFk]
      by_cases fc1 : (k - 1) + 1 < f.length ∧ f.getD (k - 1) 0 = f.getD (k - 1 + 1) 0 ∧
          getQ err (k - 1 + 1) < getQ err (k - 1)
      · have : (markForward err f).getD (k - 1) 0 = -1 :=
          (markForward_char err f (k - 1)).1 fc1
        rw [this] at hFk1
        have := hnn k
        omega
      · have : (markForward err f).getD (k - 1) 0 = f.getD (k - 1) 0 :=
          (markForward_char err f (k - 1)).2 fc1
        rw [this] at hFk1
        exact absurd h4 (not_lt.mpr (hleft h1 hFk1))
    rw [(markBackward_char err (markForward err f) k).2 bc, hFk]
  · intro h1 h2 h3 h4 h5 h6
    have hFk : (markForward err f).getD k 0 = -1 :=
      (markForward_char err f k).1 ⟨h2, h4.symm, h5⟩
    by_cases bc : 1 ≤ k ∧ k < (markForward err f).length ∧
        (markForward err f).getD k 0 = (markForward err f).getD (k - 1) 0 ∧
        getQ err (k - 1) < getQ err k
    · exact (markBackward_char err (markForward err f) k).1 bc
    · rw [(markBackward_char err (markForward err f) k).2 bc, hFk]

theorem setPosition_xFrom (v : ZoomerView) (frame : ZoomerFrame) (cx cy r : ℚ)
    (prev : ZoomerView) :
    (setPosition v frame cx cy r prev).xFrom =
      markBackward (makeRuler (cx - radiusPixelHorOf v r) (cx + radiusPixelHorOf v r)
          v.xCoord.length prev.xNearest).newError
        (markForward (makeRuler (cx - radiusPixelHorOf v r) (cx + radiusPixelHorOf v r)
            v.xCoord.length prev.xNearest).newError
          (makeRuler (cx - radiusPixelHorOf v r) (cx + radiusPixelHorOf v r)
            v.xCoord.length prev.xNearest).newFrom) := rfl

theorem setPosition_yFrom (v : ZoomerView) (frame : ZoomerFrame) (cx cy r : ℚ)
    (prev : ZoomerView) :
    (setPosition v frame cx cy r prev).yFrom =
      markBackward (makeRuler (cy - radiusPixelVerOf v r) (cy + radiusPixelVerOf v r)
          v.yCoord.length prev.yNearest).newError
        (markForward (makeRuler (cy - radiusPixelVerOf v r) (cy + radiusPixelVerOf v r)
            v.yCoord.length prev.yNearest).newError
          (makeRuler (cy - radiusPixelVerOf v r) (cy + radiusPixelVerOf v r)
            v.yCoord.length prev.yNearest).newFrom) := rfl

theorem makeRuler_from_nonneg (s e : ℚ) (n : ℕ) (old : List ℚ) :
    ∀ m : ℕ, 0 ≤ (makeRuler s e n old).newFrom.getD m 0 := by
  intro m
  by_cases h : m < (makeRuler s e n old).newFrom.length
  · rw [List.getD_eq_getElem _ _ h]
    exact (makeRulerAux_from_mem s e n old n 0 0 _ (List.getElem_mem h)).1
  · rw [List.getD_eq_default _ _ (le_of_not_lt h)]

/-- C2 (amended): after `setPosition` with a previous view, on each axis an
index loses its `from` (is set to `-1`) only if an adjacent index shares its
pre-marking `from` value with strictly smaller error; every index whose error
is minimal among its adjacent equal-`from` neighbours keeps its `from` (hence
every maximal equal-`from` run keeps at least one stop, including each of its
minimal-error stops); and when three consecutive `from` entries are equal
with the middle error strictly greater than both neighbours, the middle is
marked `-1`.  The exactly-one-survivor form of the original claim fails for
tied or valley-shaped error runs. -/
theorem setPosition_duplicate_marking (v : ZoomerView) (frame : ZoomerFrame)
    (cx cy r : ℚ) (prev : ZoomerView) (fx : List ℤ) (ex : List ℚ) (Rx : List ℤ)
    (fy : List ℤ) (ey : List ℚ) (Ry : List ℤ)
    (hfx : fx = (makeRuler (cx - radiusPixelHorOf v r) (cx + radiusPixelHorOf v r)
      v.xCoord.length prev.xNearest).newFrom)
    (hex : ex = (makeRuler (cx - radiusPixelHorOf v r) (cx + radiusPixelHorOf v r)
      v.xCoord.length prev.xNearest).newError)
    (hRx : Rx = (setPosition v frame cx cy r prev).xFrom)
    (hfy : fy = (makeRuler (cy - radiusPixelVerOf v r) (cy + radiusPixelVerOf v r)
      v.yCoord.length prev.yNearest).newFrom)
    (hey : ey = (makeRuler (cy - radiusPixelVerOf v r) (cy + radiusPixelVerOf v r)
      v.yCoord.length prev.yNearest).newError)
    (hRy : Ry = (setPosition v frame cx cy r prev).yFrom) :
    (∀ k : ℕ,
      (Rx.getD k 0 ≠ fx.getD k 0 →
        (k + 1 < fx.length ∧ fx.getD (k + 1) 0 = fx.getD k 0 ∧
          getQ ex (k + 1) < getQ ex k) ∨
        (1 ≤ k ∧ fx.getD (k - 1) 0 = fx.getD k 0 ∧ getQ ex (k - 1) < getQ ex k)) ∧
      (((k + 1 < fx.length → fx.getD (k + 1) 0 = fx.getD k 0 →
          getQ ex k ≤ getQ ex (k + 1)) ∧
        (1 ≤ k → fx.getD (k - 1) 0 = fx.getD k 0 → getQ ex k ≤ getQ ex (k - 1))) →
        Rx.getD k 0 = fx.getD k 0) ∧
      (1 ≤ k → k + 1 < fx.length → fx.getD (k - 1) 0 = fx.getD k 0 →
        fx.getD (k + 1) 0 = fx.getD k 0 → getQ ex (k + 1) < getQ ex k →
        getQ ex (k - 1) < getQ ex k → Rx.getD k 0 = -1)) ∧
    (∀ k : ℕ,
      (Ry.getD k 0 ≠ fy.getD k 0 →
        (k + 1 < fy.length ∧ fy.getD (k + 1) 0 = fy.getD k 0 ∧
          getQ ey (k + 1) < getQ ey k) ∨
        (1 ≤ k ∧ fy.getD (k - 1) 0 = fy.getD k 0 ∧ getQ ey (k - 1) < getQ ey k)) ∧
      (((k + 1 < fy.length → fy.getD (k + 1) 0 = fy.getD k 0 →
          getQ ey k ≤ getQ ey (k + 1)) ∧
        (1 ≤ k → fy.getD (k - 1) 0 = fy.getD k 0 → getQ ey k ≤ getQ ey (k - 1))) →
        Ry.getD k 0 = fy.getD k 0) ∧
      (1 ≤ k → k + 1 < fy.length → fy.getD (k - 1) 0 = fy.getD k 0 →
        fy.getD (k + 1) 0 = fy.getD k 0 → getQ ey (k + 1) < getQ ey k →
        getQ ey (k - 1) < getQ ey k → Ry.getD k 0 = -1)) := by
  constructor
  · intro k
    have hR : Rx = markBackward ex (markForward ex fx) := by
      rw [hRx, setPosition_xFrom, ← hfx, ← hex]
    rw [hR]
    exact markPasses_spec ex fx (hfx ▸ makeRuler_from_nonneg _ _ _ _) k
  · intro k
    have hR : Ry = markBackward ey (markForward ey fy) := by
      rw [hRy, setPosition_yFrom, ← hfy, ← hey]
    rw [hR]
    exact markPasses_spec ey fy (hfy ▸ makeRuler_from_nonneg _ _ _ _) k

/-- Counterexample to C2 as stated: a 2-by-2 `setPosition` against a previous
view with `xNearest = [0, 100]` at center 0, radius 1 produces the x stops
`-1, 1`, both inheriting `from = 0` with equal errors `1, 1`; neither marking
pass fires, both indices of the run keep `from = 0` and none is `-1`, so the
run does not retain exactly one stop. -/
theorem setPosition_marking_counterexample :
    (setPosition (view22 [0, 0] [0, 0] [0, 0, 0, 0]) (frameBlank []) 0 0 1
      (view22 [0, 100] [-1, 1] [5, 5, 5, 5])).xFrom = [0, 0] := by
  rw [setPosition_xFrom]
  norm_num [view22, radiusPixelHorOf, makeRuler, makeRulerAux, advance, getQ,
    markForward, markForwardAux, mfStep, markBackward, markBackwardAux, mbStep]

/-- Witness for the amended C2: in the same run, index 0 has minimal error
among its equal-`from` neighbours and indeed keeps `from = 0`. -/
theorem setPosition_duplicate_marking_witness :
    (setPosition (view22 [0, 0] [0, 0] [0, 0, 0, 0]) (frameBlank []) 0 0 1
      (view22 [0, 100] [-1, 1] [5, 5, 5, 5])).xFrom.getD 0 0 =
      (makeRuler (0 - radiusPixelHorOf (view22 [0, 0] [0, 0] [0, 0, 0, 0]) 1)
        (0 + radiusPixelHorOf (view22 [0, 0] [0, 0] [0, 0, 0, 0]) 1)
        (view22 [0, 0] [0, 0] [0, 0, 0, 0]).xCoord.length
        (view22 [0, 100] [-1, 1] [5, 5, 5, 5]).xNearest).newFrom.getD 0 0 := by
  have h := setPosition_duplicate_marking (view22 [0, 0] [0, 0] [0, 0, 0, 0])
    (frameBlank []) 0 0 1 (view22 [0, 100] [-1, 1] [5, 5, 5, 5])
    _ _ _ _ _ _ rfl rfl rfl rfl rfl rfl
  exact ((h.1 0).2.1 (by
    constructor
    · intro h1 h2
      norm_num [view22, radiusPixelHorOf, makeRuler, makeRulerAux, advance, getQ]
    · intro h1
      omega))

/-!  ## `ZoomerView.updateLines` (src/zoomer.js lines 596-704)

The external pixel calculator `zoomer.onUpdatePixel(zoomer, frame, x, y)` is
modelled as a function argument `onUpdatePixel : ℚ → ℚ → ℕ`.  `updateLines` returns the
updated view together with the number of calculator invocations (each
invocation is paired in the source with a `frame.cntPixels++`). -/

/-- Worst-error scan (`for (i = 1; i < len; i++) if (err[i] > worst) ...`),
starting from the candidate `(0, err[0])`; one fuel unit per loop step. -/
def worstIndexAux (err : List ℚ) : ℕ → ℕ → ℕ → ℚ → ℕ × ℚ
  | 0, _, bi, be => (bi, be)
  | fuel + 1, i, bi, be =>
    if i < err.length then
      if be < getQ err i then worstIndexAux err fuel (i + 1) i (getQ err i)
      else worstIndexAux err fuel (i + 1) bi be
    else (bi, be)

def worstIndex (err : List ℚ) : ℕ × ℚ :=
  worstIndexAux err err.length 1 0 (getQ err 0)

/-- Column fill loop (`for (j = 1; j < pixelHeight; j++)`): recompute when
`yError[j] === 0 || yFrom[j] !== -1`, otherwise carry the previous result;
every iteration stores into `pixels[j * pixelWidth + i]`. -/
def colLoopAux (onUpdatePixel : ℚ → ℚ → ℕ) (x : ℚ) (yCoord yError : List ℚ) (yF : List ℤ)
    (pW pH i : ℕ) : ℕ → ℕ → ℕ → List ℕ → ℕ → List ℕ × ℕ
  | 0, _, _, px, cnt => (px, cnt)
  | fuel + 1, j, result, px, cnt =>
    if j < pH then
      if getQ yError j = 0 ∨ yF.getD j 0 ≠ -1 then
        let result' := onUpdatePixel x (getQ yCoord j)
        colLoopAux onUpdatePixel x yCoord yError yF pW pH i fuel (j + 1) result'
          (px.set (j * pW + i) result') (cnt + 1)
      else
        colLoopAux onUpdatePixel x yCoord yError yF pW pH i fuel (j + 1) result
          (px.set (j * pW + i) result) cnt
    else (px, cnt)

/-- Duplicate a computed column `i` into column `u`
(`for (v = 0; v < pixelHeight; v++) pixels[v*pW+u] = pixels[v*pW+i]`). -/
def copyColumnAux (pW i u : ℕ) : ℕ → ℕ → List ℕ → List ℕ
  | 0, _, px => px
  | fuel + 1, vv, px =>
    copyColumnAux pW i u fuel (vv + 1) (px.set (vv * pW + u) (px.getD (vv * pW + i) 0))

/-- Rightward propagation (`for (u = i + 1; u < pixelWidth; u++)`), stopping at
the first column with `xError[u] === 0 || xFrom[u] !== -1`. -/
def propagateColsAux (xError : List ℚ) (xF : List ℤ) (pW pH i : ℕ) :
    ℕ → ℕ → List ℕ → List ℕ
  | 0, _, px => px
  | fuel + 1, u, px =>
    if u < pW then
      if getQ xError u = 0 ∨ xF.getD u 0 ≠ -1 then px
      else propagateColsAux xError xF pW pH i fuel (u + 1) (copyColumnAux pW i u pH 0 px)
    else px

/-- Row fill loop (`for (i = 1; i < pixelWidth; i++)`), mirror of `colLoopAux`. -/
def rowLoopAux (onUpdatePixel : ℚ → ℚ → ℕ) (y : ℚ) (xCoord xError : List ℚ) (xF : List ℤ)
    (pW j : ℕ) : ℕ → ℕ → ℕ → List ℕ → ℕ → List ℕ × ℕ
  | 0, _, _, px, cnt => (px, cnt)
  | fuel + 1, i, result, px, cnt =>
    if i < pW then
      if getQ xError i = 0 ∨ xF.getD i 0 ≠ -1 then
        let result' := onUpdatePixel (getQ xCoord i) y
        rowLoopAux onUpdatePixel y xCoord xError xF pW j fuel (i + 1) result'
          (px.set (j * pW + i) result') (cnt + 1)
      else
        rowLoopAux onUpdatePixel y xCoord xError xF pW j fuel (i + 1) result
          (px.set (j * pW + i) result) cnt
    else (px, cnt)

/-- Duplicate row `j` into row `vv` (`pixels.copyWithin(v0, j0, j0 + pW)`). -/
def copyRowAux (pW j vv : ℕ) : ℕ → ℕ → List ℕ → List ℕ
  | 0, _, px => px
  | fuel + 1, u, px =>
    copyRowAux pW j vv fuel (u + 1) (px.set (vv * pW + u) (px.getD (j * pW + u) 0))

/-- Downward propagation (`for (v = j + 1; v < pixelHeight; v++)`). -/
def propagateRowsAux (yError : List ℚ) (yF : List ℤ) (pW pH j : ℕ) :
    ℕ → ℕ → List ℕ → List ℕ
  | 0, _, px => px
  | fuel + 1, vv, px =>
    if vv < pH then
      if getQ yError vv = 0 ∨ yF.getD vv 0 ≠ -1 then px
      else propagateRowsAux yError yF pW pH j fuel (vv + 1) (copyRowAux pW j vv pW 0 px)
    else px

/-- `ZoomerView.updateLines`: find the worst x and y stop; if no error is
left, return unchanged; otherwise recompute the worst column (when
`worstXerr > worstYerr`) or the worst row, propagate it over adjacent stale
stops, zero its ruler error, bump the line counter and refresh `quality`. -/
def updateLines (onUpdatePixel : ℚ → ℚ → ℕ) (v : ZoomerView) : ZoomerView × ℕ :=
  let wx := worstIndex v.xError
  let wy := worstIndex v.yError
  if wx.2 + wy.2 = 0 then (v, 0)
  else if wy.2 < wx.2 then
    let i := wx.1
    let x := getQ v.xCoord i
    let r0 := onUpdatePixel x (getQ v.yCoord 0)
    let px0 := v.frame.pixels.set (0 * v.pixelWidth + i) r0
    let pc := colLoopAux onUpdatePixel x v.yCoord v.yError v.yFrom v.pixelWidth v.pixelHeight i
      v.pixelHeight 1 r0 px0 1
    let px1 := propagateColsAux v.xError v.xFrom v.pixelWidth v.pixelHeight i
      v.pixelWidth (i + 1) pc.1
    let cntP := v.frame.cntPixels + pc.2
    ({ v with
        xNearest := v.xNearest.set i x,
        xError := v.xError.set i 0,
        frame := { v.frame with
          pixels := px1, cntPixels := cntP, cntVLines := v.frame.cntVLines + 1,
          quality := (cntP : ℚ) / ((v.frame.pixelWidth : ℚ) * v.frame.pixelHeight) } },
      pc.2)
  else
    let j := wy.1
    let y := getQ v.yCoord j
    let r0 := onUpdatePixel (getQ v.xCoord 0) y
    let px0 := v.frame.pixels.set (j * v.pixelWidth + 0) r0
    let pc := rowLoopAux onUpdatePixel y v.xCoord v.xError v.xFrom v.pixelWidth j
      v.pixelWidth 1 r0 px0 1
    let px1 := propagateRowsAux v.yError v.yFrom v.pixelWidth v.pixelHeight j
      v.pixelHeight (j + 1) pc.1
    let cntP := v.frame.cntPixels + pc.2
    ({ v with
        yNearest := v.yNearest.set j y,
        yError := v.yError.set j 0,
        frame := { v.frame with
          pixels := px1, cntPixels := cntP, cntHLines := v.frame.cntHLines + 1,
          quality := (cntP : ℚ) / ((v.frame.pixelWidth : ℚ) * v.frame.pixelHeight) } },
      pc.2)

/-- Repeated calls of `updateLines` with the same calculator. -/
def iterateUpdateLines (onUpdatePixel : ℚ → ℚ → ℕ) : ℕ → ZoomerView → ZoomerView
  | 0, v => v
  | n + 1, v => iterateUpdateLines onUpdatePixel n (updateLines onUpdatePixel v).1

/-! Worst-error scan lemmas. -/

theorem worstIndexAux_be_le (err : List ℚ) :
    ∀ fuel i bi be, be ≤ (worstIndexAux err fuel i bi be).2 := by
  intro fuel
  induction fuel with
  | zero => intro i bi be; exact le_refl _
  | succ fuel ih =>
    intro i bi be
    simp only [worstIndexAux]
    split
    · split
      · next hlt => exact le_trans (le_of_lt hlt) (ih (i + 1) i (getQ err i))
      · exact ih (i + 1) bi be
    · exact le_refl _

theorem worstIndexAux_attain (err : List ℚ) :
    ∀ fuel i bi be, bi < err.length → be = getQ err bi →
      (worstIndexAux err fuel i bi be).1 < err.length ∧
      (worstIndexAux err fuel i bi be).2 =
        getQ err (worstIndexAux err fuel i bi be).1 := by
  intro fuel
  induction fuel with
  | zero => intro i bi be hbi hbe; exact ⟨hbi, hbe⟩
  | succ fuel ih =>
    intro i bi be hbi hbe
    simp only [worstIndexAux]
    split
    · next hi =>
      split
      · exact ih (i + 1) i (getQ err i) hi rfl
      · exact ih (i + 1) bi be hbi hbe
    · exact ⟨hbi, hbe⟩

theorem worstIndexAux_ge (err : List ℚ) :
    ∀ fuel i bi be k, i ≤ k → k < err.length → k < i + fuel →
      getQ err k ≤ (worstIndexAux err fuel i bi be).2 := by
  intro fuel
  induction fuel with
  | zero => intro i bi be k h1 _ h3; omega
  | succ fuel ih =>
    intro i bi be k h1 h2 h3
    have hi : i < err.length := by omega
    simp only [worstIndexAux, if_pos hi]
    by_cases hk : k = i
    · subst hk
      split
      · exact le_trans (le_refl _) (worstIndexAux_be_le err fuel (k + 1) k (getQ err k))
      · next hnlt => exact le_trans (le_of_not_lt hnlt) (worstIndexAux_be_le err fuel _ bi be)
    · split
      · exact ih (i + 1) i (getQ err i) k (by omega) h2 (by omega)
      · exact ih (i + 1) bi be k (by omega) h2 (by omega)

theorem worstIndex_spec (err : List ℚ) (h1 : 1 ≤ err.length) :
    (worstIndex err).1 < err.length ∧
    (worstIndex err).2 = getQ err (worstIndex err).1 ∧
    (∀ k, k < err.length → getQ err k ≤ (worstIndex err).2) := by
  have hat := worstIndexAux_attain err err.length 1 0 (getQ err 0) (by omega) rfl
  refine ⟨hat.1, hat.2, ?_⟩
  intro k hk
  by_cases hk0 : k = 0
  · subst hk0
    exact worstIndexAux_be_le err err.length 1 0 (getQ err 0)
  · exact worstIndexAux_ge err err.length 1 0 (getQ err 0) k (by omega) hk (by omega)

/-! Nonzero-error counting, the termination measure of claim C3. -/

def countNZ (err : List ℚ) : ℕ := err.countP fun q => decide (q ≠ 0)

theorem countNZ_le (err : List ℚ) : countNZ err ≤ err.length :=
  List.countP_le_length _

theorem countNZ_eq_zero_iff (err : List ℚ) :
    countNZ err = 0 → ∀ m : ℕ, getQ err m = 0 := by
  intro h m
  by_cases hm : m < err.length
  · rw [getQ, List.getD_eq_getElem _ _ hm]
    have := List.countP_eq_zero.mp h _ (List.getElem_mem hm)
    simpa using this
  · rw [getQ, List.getD_eq_default _ _ (le_of_not_lt hm)]

theorem countNZ_set_zero_lt (err : List ℚ) :
    ∀ i : ℕ, i < err.length → getQ err i ≠ 0 → countNZ (err.set i 0) < countNZ err := by
  induction err with
  | nil => intro i hi; simp at hi
  | cons a t ih =>
    intro i hi hne
    cases i with
    | zero =>
      have ha : a ≠ 0 := by simpa [getQ] using hne
      simp only [List.set_cons_zero, countNZ, List.countP_cons]
      have h0 : (decide ((0 : ℚ) ≠ 0)) = false := by simp
      have h1 : (decide (a ≠ 0)) = true := by simpa using ha
      rw [h0, h1]
      simp
    | succ i =>
      have hi' : i < t.length := by simpa using hi
      have hne' : getQ t i ≠ 0 := by simpa [getQ, List.getD_cons_succ] using hne
      have := ih i hi' hne'
      simp only [List.set_cons_succ, countNZ, List.countP_cons]
      unfold countNZ at this
      omega

theorem getQ_set_zero_nonneg (err : List ℚ) (i : ℕ) (h : ∀ m : ℕ, 0 ≤ getQ err m) :
    ∀ m : ℕ, 0 ≤ getQ (err.set i 0) m := by
  intro m
  by_cases hmi : i = m
  · subst hmi
    by_cases hlt : i < err.length
    · rw [getQ, getD_set_self _ _ _ _ hlt]
    · rw [getQ, List.getD_eq_default _ _ (by simpa using le_of_not_lt hlt)]
  · rw [getQ, getD_set_ne _ _ _ _ _ hmi]
    exact h m

theorem getQ_nonneg_of_forall_mem (err : List ℚ) (h : ∀ q ∈ err, 0 ≤ q) :
    ∀ m : ℕ, 0 ≤ getQ err m := by
  intro m
  by_cases hm : m < err.length
  · rw [getQ, List.getD_eq_getElem _ _ hm]
    exact h _ (List.getElem_mem hm)
  · rw [getQ, List.getD_eq_default _ _ (le_of_not_lt hm)]

/-! Shape of a single `updateLines` call. -/

theorem updateLines_at_fixpoint (onUpdatePixel : ℚ → ℚ → ℕ) (v : ZoomerView)
    (hfix : (worstIndex v.xError).2 + (worstIndex v.yError).2 = 0) :
    updateLines onUpdatePixel v = (v, 0) := by
  simp [updateLines, hfix]

theorem updateLines_cases (onUpdatePixel : ℚ → ℚ → ℕ) (v : ZoomerView)
    (hfix : ¬((worstIndex v.xError).2 + (worstIndex v.yError).2 = 0)) :
    ((worstIndex v.yError).2 < (worstIndex v.xError).2 ∧
      (updateLines onUpdatePixel v).1.xError = v.xError.set (worstIndex v.xError).1 0 ∧
      (updateLines onUpdatePixel v).1.yError = v.yError) ∨
    (¬((worstIndex v.yError).2 < (worstIndex v.xError).2) ∧
      (updateLines onUpdatePixel v).1.yError = v.yError.set (worstIndex v.yError).1 0 ∧
      (updateLines onUpdatePixel v).1.xError = v.xError) := by
  by_cases hcol : (worstIndex v.yError).2 < (worstIndex v.xError).2
  · left
    refine ⟨hcol, ?_, ?_⟩ <;> simp [updateLines, hfix, hcol]
  · right
    refine ⟨hcol, ?_, ?_⟩ <;> simp [updateLines, hfix, hcol]

theorem updateLines_dims (onUpdatePixel : ℚ → ℚ → ℕ) (v : ZoomerView) :
    (updateLines onUpdatePixel v).1.pixelWidth = v.pixelWidth ∧
    (updateLines onUpdatePixel v).1.pixelHeight = v.pixelHeight ∧
    (updateLines onUpdatePixel v).1.xError.length = v.xError.length ∧
    (updateLines onUpdatePixel v).1.yError.length = v.yError.length ∧
    (updateLines onUpdatePixel v).1.frame.cntPixels =
      v.frame.cntPixels + (updateLines onUpdatePixel v).2 := by
  by_cases hfix : (worstIndex v.xError).2 + (worstIndex v.yError).2 = 0
  · simp [updateLines, hfix]
  · by_cases hcol : (worstIndex v.yError).2 < (worstIndex v.xError).2 <;>
      refine ⟨?_, ?_, ?_, ?_, ?_⟩ <;> simp [updateLines, hfix, hcol]

theorem colLoopAux_cnt_le (onUpdatePixel : ℚ → ℚ → ℕ) (x : ℚ) (yC yE : List ℚ)
    (yF : List ℤ) (pW pH i : ℕ) :
    ∀ fuel j r px cnt,
      (colLoopAux onUpdatePixel x yC yE yF pW pH i fuel j r px cnt).2 ≤ cnt + fuel := by
  intro fuel
  induction fuel with
  | zero => intro j r px cnt; exact le_refl _
  | succ fuel ih =>
    intro j r px cnt
    simp only [colLoopAux]
    split
    · split
      · exact le_trans (ih _ _ _ _) (by omega)
      · exact le_trans (ih _ _ _ _) (by omega)
    · omega

theorem rowLoopAux_cnt_le (onUpdatePixel : ℚ → ℚ → ℕ) (y : ℚ) (xC xE : List ℚ)
    (xF : List ℤ) (pW j : ℕ) :
    ∀ fuel i r px cnt,
      (rowLoopAux onUpdatePixel y xC xE xF pW j fuel i r px cnt).2 ≤ cnt + fuel := by
  intro fuel
  induction fuel with
  | zero => intro i r px cnt; exact le_refl _
  | succ fuel ih =>
    intro i r px cnt
    simp only [rowLoopAux]
    split
    · split
      · exact le_trans (ih _ _ _ _) (by omega)
      · exact le_trans (ih _ _ _ _) (by omega)
    · omega

theorem updateLines_calls_le (onUpdatePixel : ℚ → ℚ → ℕ) (v : ZoomerView)
    (hW : 1 ≤ v.pixelWidth) (hH : 1 ≤ v.pixelHeight) :
    (updateLines onUpdatePixel v).2 ≤ v.pixelWidth + v.pixelHeight := by
  by_cases hfix : (worstIndex v.xError).2 + (worstIndex v.yError).2 = 0
  · simp [updateLines, hfix]
  · by_cases hcol : (worstIndex v.yError).2 < (worstIndex v.xError).2
    · have hb := colLoopAux_cnt_le onUpdatePixel (getQ v.xCoord (worstIndex v.xError).1)
        v.yCoord v.yError v.yFrom v.pixelWidth v.pixelHeight (worstIndex v.xError).1
        v.pixelHeight 1
        (onUpdatePixel (getQ v.xCoord (worstIndex v.xError).1) (getQ v.yCoord 0))
        (v.frame.pixels.set (0 * v.pixelWidth + (worstIndex v.xError).1)
          (onUpdatePixel (getQ v.xCoord (worstIndex v.xError).1) (getQ v.yCoord 0))) 1
      simp only [updateLines, if_neg hfix, if_pos hcol]
      omega
    · have hb := rowLoopAux_cnt_le onUpdatePixel (getQ v.yCoord (worstIndex v.yError).1)
        v.xCoord v.xError v.xFrom v.pixelWidth (worstIndex v.yError).1
        v.pixelWidth 1
        (onUpdatePixel (getQ v.xCoord 0) (getQ v.yCoord (worstIndex v.yError).1))
        (v.frame.pixels.set ((worstIndex v.yError).1 * v.pixelWidth + 0)
          (onUpdatePixel (getQ v.xCoord 0) (getQ v.yCoord (worstIndex v.yError).1))) 1
      simp only [updateLines, if_neg hfix, if_neg hcol]
      omega

/-- C7: when the worst x-error and the worst y-error are both zero,
`updateLines` returns without touching the view, the rulers, the pixels or
any frame statistic, and performs zero calculator invocations — for every
possible calculator. -/
theorem updateLines_idempotent_at_fixpoint (onUpdatePixel : ℚ → ℚ → ℕ)
    (v : ZoomerView) (hx : (worstIndex v.xError).2 = 0)
    (hy : (worstIndex v.yError).2 = 0) :
    updateLines onUpdatePixel v = (v, 0) :=
  updateLines_at_fixpoint onUpdatePixel v (by rw [hx, hy]; norm_num)

/-- Witness for C7 on a concrete 2-by-2 view with all errors zero and a
nonzero calculator. -/
theorem updateLines_idempotent_at_fixpoint_witness :
    updateLines (fun _ _ => 3) (view22 [0, 1] [0, 1] [9, 9, 9, 9]) =
      (view22 [0, 1] [0, 1] [9, 9, 9, 9], 0) :=
  updateLines_idempotent_at_fixpoint (fun _ _ => 3) (view22 [0, 1] [0, 1] [9, 9, 9, 9])
    (by norm_num [view22, worstIndex, worstIndexAux, getQ])
    (by norm_num [view22, worstIndex, worstIndexAux, getQ])

theorem fixpoint_all_zero (v : ZoomerView)
    (hx1 : 1 ≤ v.xError.length) (hy1 : 1 ≤ v.yError.length)
    (hxnn : ∀ m : ℕ, 0 ≤ getQ v.xError m) (hynn : ∀ m : ℕ, 0 ≤ getQ v.yError m)
    (hfix : (worstIndex v.xError).2 + (worstIndex v.yError).2 = 0) :
    (∀ m : ℕ, getQ v.xError m = 0) ∧ (∀ m : ℕ, getQ v.yError m = 0) := by
  obtain ⟨hxl, hxa, hxge⟩ := worstIndex_spec v.xError hx1
  obtain ⟨hyl, hya, hyge⟩ := worstIndex_spec v.yError hy1
  have hx0 : 0 ≤ (worstIndex v.xError).2 := hxa ▸ hxnn _
  have hy0 : 0 ≤ (worstIndex v.yError).2 := hya ▸ hynn _
  have hxz : (worstIndex v.xError).2 = 0 := by linarith
  have hyz : (worstIndex v.yError).2 = 0 := by linarith
  constructor
  · intro m
    by_cases hm : m < v.xError.length
    · exact le_antisymm (hxz ▸ hxge m hm) (hxnn m)
    · rw [getQ, List.getD_eq_default _ _ (le_of_not_lt hm)]
  · intro m
    by_cases hm : m < v.yError.length
    · exact le_antisymm (hyz ▸ hyge m hm) (hynn m)
    · rw [getQ, List.getD_eq_default _ _ (le_of_not_lt hm)]

theorem updateLines_measure_lt (onUpdatePixel : ℚ → ℚ → ℕ) (v : ZoomerView)
    (hx1 : 1 ≤ v.xError.length) (hy1 : 1 ≤ v.yError.length)
    (hxnn : ∀ m : ℕ, 0 ≤ getQ v.xError m) (hynn : ∀ m : ℕ, 0 ≤ getQ v.yError m)
    (hfix : ¬((worstIndex v.xError).2 + (worstIndex v.yError).2 = 0)) :
    countNZ (updateLines onUpdatePixel v).1.xError +
      countNZ (updateLines onUpdatePixel v).1.yError <
      countNZ v.xError + countNZ v.yError := by
  obtain ⟨hxl, hxa, -⟩ := worstIndex_spec v.xError hx1
  obtain ⟨hyl, hya, -⟩ := worstIndex_spec v.yError hy1
  have hx0 : 0 ≤ (worstIndex v.xError).2 := hxa ▸ hxnn _
  have hy0 : 0 ≤ (worstIndex v.yError).2 := hya ▸ hynn _
  rcases updateLines_cases onUpdatePixel v hfix with ⟨hcol, hxe, hye⟩ | ⟨hcol, hye, hxe⟩
  · rw [hxe, hye]
    have hwx : (worstIndex v.xError).2 ≠ 0 := by
      intro h0
      rw [h0] at hcol
      linarith
    have hlt := countNZ_set_zero_lt v.xError (worstIndex v.xError).1 hxl (hxa ▸ hwx)
    omega
  · rw [hxe, hye]
    have hwy : (worstIndex v.yError).2 ≠ 0 := by
      intro h0
      have hle : (worstIndex v.xError).2 ≤ (worstIndex v.yError).2 := le_of_not_lt hcol
      apply hfix
      rw [h0]
      have : (worstIndex v.xError).2 = 0 := le_antisymm (h0 ▸ hle) hx0
      rw [this]
      norm_num
    have hlt := countNZ_set_zero_lt v.yError (worstIndex v.yError).1 hyl (hya ▸ hwy)
    omega

theorem updateLines_invariants (onUpdatePixel : ℚ → ℚ → ℕ) (v : ZoomerView)
    (hxw : v.xError.length = v.pixelWidth) (hyh : v.yError.length = v.pixelHeight)
    (hxnn : ∀ m : ℕ, 0 ≤ getQ v.xError m) (hynn : ∀ m : ℕ, 0 ≤ getQ v.yError m) :
    (updateLines onUpdatePixel v).1.xError.length =
      (updateLines onUpdatePixel v).1.pixelWidth ∧
    (updateLines onUpdatePixel v).1.yError.length =
      (updateLines onUpdatePixel v).1.pixelHeight ∧
    (∀ m : ℕ, 0 ≤ getQ (updateLines onUpdatePixel v).1.xError m) ∧
    (∀ m : ℕ, 0 ≤ getQ (updateLines onUpdatePixel v).1.yError m) := by
  obtain ⟨hdw, hdh, hlx, hly, -⟩ := updateLines_dims onUpdatePixel v
  refine ⟨by rw [hdw, hlx, hxw], by rw [hdh, hly, hyh], ?_, ?_⟩
  · by_cases hfix : (worstIndex v.xError).2 + (worstIndex v.yError).2 = 0
    · rw [updateLines_at_fixpoint onUpdatePixel v hfix]
      exact hxnn
    · rcases updateLines_cases onUpdatePixel v hfix with ⟨-, hxe, -⟩ | ⟨-, -, hxe⟩
      · rw [hxe]
        exact getQ_set_zero_nonneg _ _ hxnn
      · rw [hxe]
        exact hxnn
  · by_cases hfix : (worstIndex v.xError).2 + (worstIndex v.yError).2 = 0
    · rw [updateLines_at_fixpoint onUpdatePixel v hfix]
      exact hynn
    · rcases updateLines_cases onUpdatePixel v hfix with ⟨-, -, hye⟩ | ⟨-, hye, -⟩
      · rw [hye]
        exact hynn
      · rw [hye]
        exact getQ_set_zero_nonneg _ _ hynn

theorem convergence_aux (onUpdatePixel : ℚ → ℚ → ℕ) :
    ∀ N : ℕ, ∀ v : ZoomerView,
      v.xError.length = v.pixelWidth → v.yError.length = v.pixelHeight →
      1 ≤ v.pixelWidth → 1 ≤ v.pixelHeight →
      (∀ m : ℕ, 0 ≤ getQ v.xError m) → (∀ m : ℕ, 0 ≤ getQ v.yError m) →
      countNZ v.xError + countNZ v.yError ≤ N →
      ∃ k, k ≤ N ∧
        (∀ m : ℕ, getQ (iterateUpdateLines onUpdatePixel k v).xError m = 0) ∧
        (∀ m : ℕ, getQ (iterateUpdateLines onUpdatePixel k v).yError m = 0) := by
  intro N
  induction N with
  | zero =>
    intro v hxw hyh hW hH hxnn hynn hmu
    refine ⟨0, le_refl 0, ?_, ?_⟩ <;>
      simpa [iterateUpdateLines] using countNZ_eq_zero_iff _ (by omega)
  | succ N ih =>
    intro v hxw hyh hW hH hxnn hynn hmu
    by_cases hfix : (worstIndex v.xError).2 + (worstIndex v.yError).2 = 0
    · obtain ⟨h1, h2⟩ := fixpoint_all_zero v (by omega) (by omega) hxnn hynn hfix
      exact ⟨0, by omega, by simpa [iterateUpdateLines] using h1,
        by simpa [iterateUpdateLines] using h2⟩
    · obtain ⟨hiw, hih, hixnn, hiynn⟩ :=
        updateLines_invariants onUpdatePixel v hxw hyh hxnn hynn
      obtain ⟨hdw, hdh, -, -, -⟩ := updateLines_dims onUpdatePixel v
      have hmu' := updateLines_measure_lt onUpdatePixel v (by omega) (by omega)
        hxnn hynn hfix
      obtain ⟨k, hk, hall⟩ := ih (updateLines onUpdatePixel v).1 hiw hih
        (by omega) (by omega) hixnn hiynn (by omega)
      exact ⟨k + 1, by omega, hall⟩

/-- C3: from any state satisfying the ruler invariants `setPosition`
establishes (error arrays of the pixel dimensions, all errors nonnegative),
repeated `updateLines` calls drive every x and y error to zero within
`pixelWidth + pixelHeight` calls, whatever the pixel calculator computes; and
any single `updateLines` call on any view with nonempty rulers increments
`cntPixels` by at most `pixelWidth + pixelHeight`. -/
theorem updateLines_convergence (onUpdatePixel : ℚ → ℚ → ℕ) (v : ZoomerView)
    (hxw : v.xError.length = v.pixelWidth) (hyh : v.yError.length = v.pixelHeight)
    (hW : 1 ≤ v.pixelWidth) (hH : 1 ≤ v.pixelHeight)
    (hxnn : ∀ m : ℕ, 0 ≤ getQ v.xError m) (hynn : ∀ m : ℕ, 0 ≤ getQ v.yError m) :
    (∃ k, k ≤ v.pixelWidth + v.pixelHeight ∧
      (∀ m : ℕ, getQ (iterateUpdateLines onUpdatePixel k v).xError m = 0) ∧
      (∀ m : ℕ, getQ (iterateUpdateLines onUpdatePixel k v).yError m = 0)) ∧
    (∀ w : ZoomerView, 1 ≤ w.pixelWidth → 1 ≤ w.pixelHeight →
      (updateLines onUpdatePixel w).1.frame.cntPixels ≤
        w.frame.cntPixels + (w.pixelWidth + w.pixelHeight)) := by
  constructor
  · have hmu : countNZ v.xError + countNZ v.yError ≤ v.pixelWidth + v.pixelHeight := by
      have h1 := countNZ_le v.xError
      have h2 := countNZ_le v.yError
      omega
    exact convergence_aux onUpdatePixel (v.pixelWidth + v.pixelHeight) v hxw hyh hW hH
      hxnn hynn hmu
  · intro w hw1 hw2
    obtain ⟨-, -, -, -, hcnt⟩ := updateLines_dims onUpdatePixel w
    have := updateLines_calls_le onUpdatePixel w hw1 hw2
    omega

/-- Witness for C3: a 2-by-2 view with one nonzero x error converges, and the
per-call pixel budget holds there. -/
theorem updateLines_convergence_witness :
    (∃ k, k ≤ (view22 [0, 1] [1, 0] [9, 9, 9, 9]).pixelWidth +
        (view22 [0, 1] [1, 0] [9, 9, 9, 9]).pixelHeight ∧
      (∀ m : ℕ, getQ (iterateUpdateLines (fun _ _ => 2) k
        (view22 [0, 1] [1, 0] [9, 9, 9, 9])).xError m = 0) ∧
      (∀ m : ℕ, getQ (iterateUpdateLines (fun _ _ => 2) k
        (view22 [0, 1] [1, 0] [9, 9, 9, 9])).yError m = 0)) ∧
    (∀ w : ZoomerView, 1 ≤ w.pixelWidth → 1 ≤ w.pixelHeight →
      (updateLines (fun _ _ => 2) w).1.frame.cntPixels ≤
        w.frame.cntPixels + (w.pixelWidth + w.pixelHeight)) :=
  updateLines_convergence (fun _ _ => 2) (view22 [0, 1] [1, 0] [9, 9, 9, 9])
    (by norm_num [view22]) (by norm_num [view22]) (by norm_num [view22])
    (by norm_num [view22])
    (getQ_nonneg_of_forall_mem _ (by
      intro q hq
      simp [view22] at hq
      simp [hq]))
    (getQ_nonneg_of_forall_mem _ (by
      intro q hq
      simp [view22] at hq
      simp [hq]))

/-! Quality bookkeeping (claim C9). -/

theorem makeRulerAux_cnt_le (s e : ℚ) (n : ℕ) (old : List ℚ) :
    ∀ fuel iNew iOld, (makeRulerAux s e n old fuel iNew iOld).cntExact ≤ n - iNew := by
  intro fuel
  induction fuel with
  | zero => intro iNew iOld; simp [makeRulerAux]
  | succ fuel ih =>
    intro iNew iOld
    by_cases hcond : iNew < n ∧ iOld < old.length
    · have hrest := ih (iNew + 1)
        (advance ((e - s) * iNew / ((n : ℚ) - 1) + s) old old.length iOld)
      simp only [makeRulerAux, if_pos hcond]
      split
      · omega
      · omega
    · simp [makeRulerAux, if_neg hcond]

theorem setPosition_frame_stats (v : ZoomerView) (frame : ZoomerFrame)
    (cx cy r : ℚ) (prev : ZoomerView) :
    (setPosition v frame cx cy r prev).frame.cntPixels =
      frame.cntPixels +
        (makeRuler (cx - radiusPixelHorOf v r) (cx + radiusPixelHorOf v r)
          v.xCoord.length prev.xNearest).cntExact *
        (makeRuler (cy - radiusPixelVerOf v r) (cy + radiusPixelVerOf v r)
          v.yCoord.length prev.yNearest).cntExact ∧
    (setPosition v frame cx cy r prev).frame.quality =
      ((setPosition v frame cx cy r prev).frame.cntPixels : ℚ) /
        ((frame.pixelWidth : ℚ) * frame.pixelHeight) ∧
    (setPosition v frame cx cy r prev).frame.pixelWidth = frame.pixelWidth ∧
    (setPosition v frame cx cy r prev).frame.pixelHeight = frame.pixelHeight :=
  ⟨rfl, rfl, rfl, rfl⟩

/-- C9 (amended): right after `setPosition` binds a fresh frame
(`cntPixels = 0`) whose pixel area covers the rulers, `cntPixels` is at most
`pixelWidth * pixelHeight` and `quality` lies in `[0, 1]`.  The bound does not
extend over subsequent `updateLines` calls, which recompute pixels that are
already counted and can push `cntPixels` past `pixelWidth * pixelHeight` and
`quality` above 1. -/
theorem setPosition_quality_fresh (v : ZoomerView) (frame : ZoomerFrame)
    (cx cy r : ℚ) (prev : ZoomerView)
    (h0 : frame.cntPixels = 0)
    (hfw : v.xCoord.length ≤ frame.pixelWidth)
    (hfh : v.yCoord.length ≤ frame.pixelHeight)
    (hW : 1 ≤ frame.pixelWidth) (hH : 1 ≤ frame.pixelHeight) :
    (setPosition v frame cx cy r prev).frame.cntPixels ≤
      frame.pixelWidth * frame.pixelHeight ∧
    0 ≤ (setPosition v frame cx cy r prev).frame.quality ∧
    (setPosition v frame cx cy r prev).frame.quality ≤ 1 := by
  obtain ⟨hcnt, hq, -, -⟩ := setPosition_frame_stats v frame cx cy r prev
  have hex : (makeRuler (cx - radiusPixelHorOf v r) (cx + radiusPixelHorOf v r)
      v.xCoord.length prev.xNearest).cntExact ≤ frame.pixelWidth := by
    have h := makeRulerAux_cnt_le (cx - radiusPixelHorOf v r) (cx + radiusPixelHorOf v r)
      v.xCoord.length prev.xNearest v.xCoord.length 0 0
    rw [makeRuler]
    omega
  have hey : (makeRuler (cy - radiusPixelVerOf v r) (cy + radiusPixelVerOf v r)
      v.yCoord.length prev.yNearest).cntExact ≤ frame.pixelHeight := by
    have h := makeRulerAux_cnt_le (cy - radiusPixelVerOf v r) (cy + radiusPixelVerOf v r)
      v.yCoord.length prev.yNearest v.yCoord.length 0 0
    rw [makeRuler]
    omega
  have hle : (setPosition v frame cx cy r prev).frame.cntPixels ≤
      frame.pixelWidth * frame.pixelHeight := by
    rw [hcnt, h0]
    simpa using Nat.mul_le_mul hex hey
  refine ⟨hle, ?_, ?_⟩
  · rw [hq]
    positivity
  · rw [hq]
    have hpos : (0 : ℚ) < (frame.pixelWidth : ℚ) * frame.pixelHeight := by
      have h1 : (1 : ℚ) ≤ (frame.pixelWidth : ℚ) := by exact_mod_cast hW
      have h2 : (1 : ℚ) ≤ (frame.pixelHeight : ℚ) := by exact_mod_cast hH
      nlinarith
    rw [div_le_one hpos]
    exact_mod_cast hle

/-- Witness for the amended C9 on a fresh 2-by-2 frame. -/
theorem setPosition_quality_fresh_witness :
    (setPosition (view22 [0, 0] [0, 0] [0, 0, 0, 0]) (frameBlank []) 0 0 1
      (view22 [0, 100] [-1, 1] [5, 5, 5, 5])).frame.cntPixels ≤
      (frameBlank []).pixelWidth * (frameBlank []).pixelHeight ∧
    0 ≤ (setPosition (view22 [0, 0] [0, 0] [0, 0, 0, 0]) (frameBlank []) 0 0 1
      (view22 [0, 100] [-1, 1] [5, 5, 5, 5])).frame.quality ∧
    (setPosition (view22 [0, 0] [0, 0] [0, 0, 0, 0]) (frameBlank []) 0 0 1
      (view22 [0, 100] [-1, 1] [5, 5, 5, 5])).frame.quality ≤ 1 :=
  setPosition_quality_fresh _ _ 0 0 1 _ (by norm_num [frameBlank])
    (by norm_num [view22, frameBlank]) (by norm_num [view22, frameBlank])
    (by norm_num [frameBlank]) (by norm_num [frameBlank])

/-! Small reduction helpers for evaluating list literals in concrete runs. -/

theorem setPairOne {α : Type} (a b x : α) : [a, b].set 1 x = [a, x] := rfl

theorem setPairZero {α : Type} (a b x : α) : [a, b].set 0 x = [x, b] := rfl

theorem setQuadZero {α : Type} (a b c d x : α) : [a, b, c, d].set 0 x = [x, b, c, d] := rfl

theorem setQuadOne {α : Type} (a b c d x : α) : [a, b, c, d].set 1 x = [a, x, c, d] := rfl

theorem setQuadTwo {α : Type} (a b c d x : α) : [a, b, c, d].set 2 x = [a, b, x, d] := rfl

theorem setQuadThree {α : Type} (a b c d x : α) : [a, b, c, d].set 3 x = [a, b, c, x] := rfl

theorem getPairZero {α : Type} (a b : α) : [a, b][0] = a := rfl

theorem getPairOne {α : Type} (a b : α) : [a, b][1] = b := rfl

theorem getQuadTwo {α : Type} (a b c d : α) : [a, b, c, d][2] = c := rfl

theorem getQuadThree {α : Type} (a b c d : α) : [a, b, c, d][3] = d := rfl

theorem toNatTwo : (2 : ℤ).toNat = 2 := rfl

theorem toNatThree : (3 : ℤ).toNat = 3 := rfl

/-- Intermediate states of the C9 counterexample run (center `(5, 9/2)`,
radius `9/2`, calculator constantly `0`), written out literally. -/
def w1C9 : ZoomerView :=
  ⟨2, 2, 2, 2, 5, 9/2, 9/2, 9/2, 9/2, 9/2, 9/2,
    [1/2, 19/2], [0, 10], [1/2, 1/2], [0, 1],
    [0, 9], [0, 10], [0, 1], [0, 1],
    ⟨2, 2, 2, 2, 0, [5, 5, 5, 5], [], none, 0, 0, 0, 0, 1, 0⟩⟩

def w2C9 : ZoomerView :=
  ⟨2, 2, 2, 2, 5, 9/2, 9/2, 9/2, 9/2, 9/2, 9/2,
    [1/2, 19/2], [0, 10], [1/2, 1/2], [0, 1],
    [0, 9], [0, 9], [0, 0], [0, 1],
    ⟨2, 2, 2, 2, 0, [5, 5, 0, 0], [], none, 0, 0, 2, 1, 1, 1/2⟩⟩

def w3C9 : ZoomerView :=
  ⟨2, 2, 2, 2, 5, 9/2, 9/2, 9/2, 9/2, 9/2, 9/2,
    [1/2, 19/2], [1/2, 10], [0, 1/2], [0, 1],
    [0, 9], [0, 9], [0, 0], [0, 1],
    ⟨2, 2, 2, 2, 0, [0, 5, 0, 0], [], none, 0, 0, 4, 1, 2, 1⟩⟩

def w4C9 : ZoomerView :=
  ⟨2, 2, 2, 2, 5, 9/2, 9/2, 9/2, 9/2, 9/2, 9/2,
    [1/2, 19/2], [1/2, 19/2], [0, 0], [0, 1],
    [0, 9], [0, 9], [0, 0], [0, 1],
    ⟨2, 2, 2, 2, 0, [0, 0, 0, 0], [], none, 0, 0, 6, 1, 3, 3/2⟩⟩

set_option maxHeartbeats 1000000 in
/-- Counterexample to C9 as stated: starting from a fresh 2-by-2 frame,
`setPosition` against a previous view with `nearest = [0, 10]` on both axes
(center `(5, 9/2)`, radius `9/2`) inherits no exact stop, and the next three
`updateLines` calls recompute one row and two columns, counting the
row/column crossing pixels twice: `cntPixels` reaches `6 > 4 = pixelWidth *
pixelHeight` and `quality` reaches `3/2 > 1`. -/
theorem quality_exceeds_one_counterexample :
    (iterateUpdateLines (fun _ _ => 0) 3
      (setPosition (view22 [0, 0] [0, 0] [0, 0, 0, 0]) (frameBlank [])
        5 (9 / 2) (9 / 2) (view22 [0, 10] [0, 10] [5, 5, 5, 5]))).frame.cntPixels = 6 ∧
    (iterateUpdateLines (fun _ _ => 0) 3
      (setPosition (view22 [0, 0] [0, 0] [0, 0, 0, 0]) (frameBlank [])
        5 (9 / 2) (9 / 2) (view22 [0, 10] [0, 10] [5, 5, 5, 5]))).frame.quality = 3 / 2 := by
  have e1 : setPosition (view22 [0, 0] [0, 0] [0, 0, 0, 0]) (frameBlank [])
      5 (9 / 2) (9 / 2) (view22 [0, 10] [0, 10] [5, 5, 5, 5]) = w1C9 := by
    norm_num [setPosition, view22, frameBlank, w1C9, makeRuler, makeRulerAux, advance,
      getQ, radiusPixelHorOf, radiusPixelVerOf, radiusViewHorOf, radiusViewVerOf,
      markForward, markForwardAux, mfStep, markBackward, markBackwardAux, mbStep,
      warpPixels, warpRowsAux, warpRow, getPixZ, List.range_succ, abs_of_nonneg,
      toNatTwo, toNatThree, getPairZero, getPairOne, getQuadTwo, getQuadThree,
      setPairZero, setPairOne, setQuadZero, setQuadOne, setQuadTwo, setQuadThree]
  have e2 : updateLines (fun _ _ => 0) w1C9 = (w2C9, 2) := by
    norm_num [updateLines, w1C9, w2C9, worstIndex, worstIndexAux, getQ, colLoopAux,
      rowLoopAux, copyColumnAux, copyRowAux, propagateColsAux, propagateRowsAux,
      abs_of_nonneg, toNatTwo, toNatThree, getPairZero, getPairOne, getQuadTwo,
      getQuadThree, setPairZero, setPairOne, setQuadZero, setQuadOne, setQuadTwo,
      setQuadThree]
  have e3 : updateLines (fun _ _ => 0) w2C9 = (w3C9, 2) := by
    norm_num [updateLines, w2C9, w3C9, worstIndex, worstIndexAux, getQ, colLoopAux,
      rowLoopAux, copyColumnAux, copyRowAux, propagateColsAux, propagateRowsAux,
      abs_of_nonneg, toNatTwo, toNatThree, getPairZero, getPairOne, getQuadTwo,
      getQuadThree, setPairZero, setPairOne, setQuadZero, setQuadOne, setQuadTwo,
      setQuadThree]
  have e4 : updateLines (fun _ _ => 0) w3C9 = (w4C9, 2) := by
    norm_num [updateLines, w3C9, w4C9, worstIndex, worstIndexAux, getQ, colLoopAux,
      rowLoopAux, copyColumnAux, copyRowAux, propagateColsAux, propagateRowsAux,
      abs_of_nonneg, toNatTwo, toNatThree, getPairZero, getPairOne, getQuadTwo,
      getQuadThree, setPairZero, setPairOne, setQuadZero, setQuadOne, setQuadTwo,
      setQuadThree]
  refine ⟨?_, ?_⟩ <;>
    · rw [e1]
      simp only [iterateUpdateLines, e2, e3, e4]
      norm_num [w4C9]

/-!  ## `zoomerRenderFrame` (src/zoomer.js lines 193-275)

The axis-aligned fast path walks the pixel buffer with a running pointer
`ji` that starts at `j * pixelWidth + i` for the crop offsets
`i = (pixelWidth - viewWidth) >> 1`, `j = (pixelHeight - viewHeight) >> 1`,
advances by one per copied column and skips `pixelWidth - viewWidth` cells per
row; the cell written at view position `(v, u)` therefore reads pixel index
`(j0 + v) * pixelWidth + i0 + u`, which is how the model states it.  The
rotated path keeps 16.16 fixed-point cursors accumulated by repeated
addition, so the cursor at view position `(j, i)` is exactly
`start + j * jstep + i * istep`. -/

def renderAxis (frame : ZoomerFrame) : List ℕ :=
  let i0 : ℤ := jsShr ((frame.pixelWidth : ℤ) - frame.viewWidth) 1
  let j0 : ℤ := jsShr ((frame.pixelHeight : ℤ) - frame.viewHeight) 1
  match frame.palette with
  | some pal =>
    ((List.range frame.viewHeight).map fun v : ℕ =>
      (List.range frame.viewWidth).map fun u : ℕ =>
        pal.getD (getPixZ frame.pixels
          ((j0 + (v : ℤ)) * frame.pixelWidth + i0 + (u : ℤ))) 0).flatten
  | none =>
    if frame.pixelWidth = frame.viewWidth then
      (List.range (frame.viewWidth * frame.viewHeight)).map fun k : ℕ =>
        getPixZ frame.pixels (j0 * frame.pixelWidth + i0 + (k : ℤ))
    else
      ((List.range frame.viewHeight).map fun v : ℕ =>
        (List.range frame.viewWidth).map fun u : ℕ =>
          getPixZ frame.pixels ((j0 + (v : ℤ)) * frame.pixelWidth + i0 + (u : ℤ))).flatten

/-- The slow rotated path, parameterized by the values `rsin, rcos` that the
source computes as `Math.sin/cos(angle * Math.PI / 180)` (transcendental
evaluation is an input of the model; at `angle = 0` it yields exactly `0`
and `1`). -/
def renderRotated (rsin rcos : ℚ) (frame : ZoomerFrame) : List ℕ :=
  let xstart : ℤ :=
    ⌊((frame.pixelWidth : ℚ) - frame.viewHeight * rsin - frame.viewWidth * rcos) * 32768⌋
  let ystart : ℤ :=
    ⌊((frame.pixelHeight : ℚ) - frame.viewHeight * rcos + frame.viewWidth * rsin) * 32768⌋
  let ixstep : ℤ := ⌊rcos * 65536⌋
  let iystep : ℤ := ⌊rsin * -65536⌋
  let jxstep : ℤ := ⌊rsin * 65536⌋
  let jystep : ℤ := ⌊rcos * 65536⌋
  ((List.range frame.viewHeight).map fun j : ℕ =>
    (List.range frame.viewWidth).map fun i : ℕ =>
      let ix := xstart + (j : ℤ) * jxstep + (i : ℤ) * ixstep
      let iy := ystart + (j : ℤ) * jystep + (i : ℤ) * iystep
      let pix := getPixZ frame.pixels (jsShr iy 16 * frame.pixelWidth + jsShr ix 16)
      match frame.palette with
      | some pal => pal.getD pix 0
      | none => pix).flatten

/-- `zoomerRenderFrame`: abort with `durationRENDER = 0` when the deadline
has passed on entry (`Date.now() >= frame.timeExpire`), otherwise populate
`rgba` by the axis-aligned or rotated path and record the elapsed render time
`etime - stime` (the two `performance.now()` readings are clock inputs of
the model). -/
def zoomerRenderFrame (rsin rcos : ℚ) (now stime etime : ℤ)
    (frame : ZoomerFrame) : ZoomerFrame :=
  if frame.timeExpire ≤ now then { frame with durationRENDER := 0 }
  else
    { frame with
      rgba := if frame.angle = 0 then renderAxis frame else renderRotated rsin rcos frame,
      durationRENDER := etime - stime }

theorem shr16_scale (a b : ℤ) : jsShr (a * 32768 + b * 65536) 16 = jsShr a 1 + b := by
  unfold jsShr
  rw [Int.fdiv_eq_ediv _ (by norm_num), Int.fdiv_eq_ediv _ (by norm_num)]
  have h1 : (2 : ℤ) ^ 16 = 65536 := by norm_num
  have h2 : (2 : ℤ) ^ 1 = 2 := by norm_num
  rw [h1, h2, Int.add_mul_ediv_right _ _ (by norm_num : (65536 : ℤ) ≠ 0)]
  have h3 : a * 32768 = 32768 * a := mul_comm _ _
  have h4 : (65536 : ℤ) = 32768 * 2 := by norm_num
  rw [h3, h4, Int.mul_ediv_mul_of_pos _ _ (by norm_num : (0 : ℤ) < 32768)]

theorem range_mul_flatten {α : Type} (w : ℕ) (g : ℕ → α) :
    ∀ h : ℕ, (List.range (w * h)).map g =
      ((List.range h).map fun v => (List.range w).map fun u => g (v * w + u)).flatten := by
  intro h
  induction h with
  | zero => simp
  | succ h ih =>
    rw [Nat.mul_succ, List.range_add, List.map_append, ih, List.range_succ,
      List.map_append, List.flatten_append]
    congr 1
    simp only [List.map_singleton, List.flatten_cons, List.flatten_nil, List.append_nil,
      List.map_map]
    apply List.map_congr_left
    intro u _
    simp [Function.comp, Nat.mul_comm]

/-- C5: with `angle = 0` (so `rsin = 0`, `rcos = 1`), the rotated fixed-point
render path produces exactly the same rgba output as the axis-aligned
crop/palette path, for every frame whose pixel dimensions are at least its
view dimensions. -/
theorem renderRotated_zero_eq_renderAxis (frame : ZoomerFrame)
    (hpw : frame.viewWidth ≤ frame.pixelWidth)
    (hph : frame.viewHeight ≤ frame.pixelHeight) :
    renderRotated 0 1 frame = renderAxis frame := by
  have hx : (⌊((frame.pixelWidth : ℚ) - frame.viewHeight * 0 - frame.viewWidth * 1)
      * 32768⌋ : ℤ) = ((frame.pixelWidth : ℤ) - frame.viewWidth) * 32768 := by
    have h : ((frame.pixelWidth : ℚ) - frame.viewHeight * 0 - frame.viewWidth * 1) * 32768
        = ((((frame.pixelWidth : ℤ) - frame.viewWidth) * 32768 : ℤ) : ℚ) := by
      push_cast
      ring
    rw [h, Int.floor_intCast]
  have hy : (⌊((frame.pixelHeight : ℚ) - frame.viewHeight * 1 + frame.viewWidth * 0)
      * 32768⌋ : ℤ) = ((frame.pixelHeight : ℤ) - frame.viewHeight) * 32768 := by
    have h : ((frame.pixelHeight : ℚ) - frame.viewHeight * 1 + frame.viewWidth * 0) * 32768
        = ((((frame.pixelHeight : ℤ) - frame.viewHeight) * 32768 : ℤ) : ℚ) := by
      push_cast
      ring
    rw [h, Int.floor_intCast]
  have hix : (⌊(1 : ℚ) * 65536⌋ : ℤ) = 65536 := by norm_num
  have hiy : (⌊(0 : ℚ) * (-65536)⌋ : ℤ) = 0 := by norm_num
  have hjx : (⌊(0 : ℚ) * 65536⌋ : ℤ) = 0 := by norm_num
  simp only [renderRotated, renderAxis, hx, hy, hix, hiy, hjx]
  have hcell : ∀ j i : ℕ,
      jsShr (((frame.pixelHeight : ℤ) - frame.viewHeight) * 32768 + j * 65536 + i * 0) 16
          * frame.pixelWidth +
        jsShr (((frame.pixelWidth : ℤ) - frame.viewWidth) * 32768 + j * 0 + i * 65536) 16 =
      (jsShr ((frame.pixelHeight : ℤ) - frame.viewHeight) 1 + j) * frame.pixelWidth +
        (jsShr ((frame.pixelWidth : ℤ) - frame.viewWidth) 1 + i) := by
    intro j i
    have e1 : ((frame.pixelHeight : ℤ) - frame.viewHeight) * 32768 + j * 65536 + i * 0
        = ((frame.pixelHeight : ℤ) - frame.viewHeight) * 32768 + j * 65536 := by ring
    have e2 : ((frame.pixelWidth : ℤ) - frame.viewWidth) * 32768 + j * 0 + i * 65536
        = ((frame.pixelWidth : ℤ) - frame.viewWidth) * 32768 + i * 65536 := by ring
    rw [e1, e2, shr16_scale, shr16_scale]
  cases hpal : frame.palette with
  | some pal =>
    simp only []
    congr 1
    apply List.map_congr_left
    intro j hj
    apply List.map_congr_left
    intro i hi
    rw [hcell j i]
    ring_nf
  | none =>
    by_cases hwv : frame.pixelWidth = frame.viewWidth
    · rw [if_pos hwv]
      rw [range_mul_flatten frame.viewWidth _ frame.viewHeight]
      congr 1
      apply List.map_congr_left
      intro j hj
      apply List.map_congr_left
      intro i hi
      rw [hcell j i]
      have : (jsShr ((frame.pixelHeight : ℤ) - frame.viewHeight) 1 + j) * frame.pixelWidth +
          (jsShr ((frame.pixelWidth : ℤ) - frame.viewWidth) 1 + i) =
          jsShr ((frame.pixelHeight : ℤ) - frame.viewHeight) 1 * frame.pixelWidth +
            jsShr ((frame.pixelWidth : ℤ) - frame.viewWidth) 1 + (j * frame.viewWidth + i) := by
        rw [hwv]
        push_cast
        ring
      rw [this]
      simp
    · rw [if_neg hwv]
      congr 1
      apply List.map_congr_left
      intro j hj
      apply List.map_congr_left
      intro i hi
      rw [hcell j i]
      ring_nf

/-- Witness for C5 on a concrete paletteless 2-by-2 frame. -/
theorem renderRotated_zero_eq_renderAxis_witness :
    renderRotated 0 1 (frameBlank [9, 8, 7, 6]) = renderAxis (frameBlank [9, 8, 7, 6]) :=
  renderRotated_zero_eq_renderAxis (frameBlank [9, 8, 7, 6])
    (by norm_num [frameBlank]) (by norm_num [frameBlank])

theorem flatten_rows_length {α : Type} (w : ℕ) (rows : ℕ → List α)
    (hrow : ∀ v, (rows v).length = w) :
    ∀ h : ℕ, (((List.range h).map rows).flatten).length = h * w := by
  intro h
  induction h with
  | zero => simp
  | succ h ih =>
    rw [List.range_succ, List.map_append, List.flatten_append, List.length_append, ih]
    simp [hrow h]
    ring

theorem renderAxis_length (frame : ZoomerFrame) :
    (renderAxis frame).length = frame.viewWidth * frame.viewHeight := by
  unfold renderAxis
  cases frame.palette with
  | some pal =>
    simp only []
    rw [flatten_rows_length frame.viewWidth _ (fun v => by simp) frame.viewHeight]
    ring
  | none =>
    simp only []
    split
    · simp
    · rw [flatten_rows_length frame.viewWidth _ (fun v => by simp) frame.viewHeight]
      ring

theorem renderRotated_length (rsin rcos : ℚ) (frame : ZoomerFrame) :
    (renderRotated rsin rcos frame).length = frame.viewWidth * frame.viewHeight := by
  unfold renderRotated
  rw [flatten_rows_length frame.viewWidth _ (fun v => by simp) frame.viewHeight]
  ring

/-- C8: when the render deadline has passed on entry, `zoomerRenderFrame`
sets `durationRENDER` to 0 and leaves every other frame field, the rgba
buffer included, unchanged; otherwise it populates `rgba` (with the full
`viewWidth * viewHeight` output of the axis-aligned or rotated path) and
records a nonzero `durationRENDER` (the render-clock reading strictly
advanced across the render). -/
theorem zoomerRenderFrame_drop_or_render (rsin rcos : ℚ) (now stime etime : ℤ)
    (frame : ZoomerFrame) :
    (frame.timeExpire ≤ now →
      zoomerRenderFrame rsin rcos now stime etime frame =
        { frame with durationRENDER := 0 }) ∧
    (now < frame.timeExpire → stime < etime →
      (zoomerRenderFrame rsin rcos now stime etime frame).rgba =
        (if frame.angle = 0 then renderAxis frame else renderRotated rsin rcos frame) ∧
      (zoomerRenderFrame rsin rcos now stime etime frame).rgba.length =
        frame.viewWidth * frame.viewHeight ∧
      (zoomerRenderFrame rsin rcos now stime etime frame).durationRENDER ≠ 0) := by
  constructor
  · intro hexp
    simp [zoomerRenderFrame, hexp]
  · intro hlive hclock
    have hnot : ¬(frame.timeExpire ≤ now) := by omega
    refine ⟨by simp [zoomerRenderFrame, hnot], ?_, ?_⟩
    · simp only [zoomerRenderFrame, if_neg hnot]
      split
      · exact renderAxis_length frame
      · exact renderRotated_length rsin rcos frame
    · simp only [zoomerRenderFrame, if_neg hnot]
      omega

/-- Witness for C8: the same concrete frame dropped at an expired deadline
and rendered at a live one. -/
theorem zoomerRenderFrame_drop_or_render_witness :
    (zoomerRenderFrame 0 1 5 7 9 (frameBlank [1, 2, 3, 4]) =
      { frameBlank [1, 2, 3, 4] with durationRENDER := 0 }) ∧
    ((zoomerRenderFrame 0 1 (-5) 7 9 (frameBlank [1, 2, 3, 4])).rgba.length =
      (frameBlank [1, 2, 3, 4]).viewWidth * (frameBlank [1, 2, 3, 4]).viewHeight ∧
    (zoomerRenderFrame 0 1 (-5) 7 9 (frameBlank [1, 2, 3, 4])).durationRENDER ≠ 0) :=
  ⟨(zoomerRenderFrame_drop_or_render 0 1 5 7 9 (frameBlank [1, 2, 3, 4])).1
      (by norm_num [frameBlank]),
    ((zoomerRenderFrame_drop_or_render 0 1 (-5) 7 9 (frameBlank [1, 2, 3, 4])).2
      (by norm_num [frameBlank]) (by norm_num)).2⟩
